import Mathlib

/-!
Verification development for the dwmyo task/calendar application
(`src/app/page.tsx`).  The definitions below are a shallow embedding of the
Calendar Data Engine: the ICS codec (`exportToICS` / `parseICS`), the
temporal bucketing (overview windows and the month grid of
`renderCalendarView`), the daily rollover (`autoMoveUncompletedTasks`) and
the persist-on-change effect.

Strings are modelled as `List Char`.  JavaScript `Date` is modelled at
calendar-date granularity: a civil date is a `(year, month, day)` triple,
day-of-week is given by Sakamoto's method (the proleptic Gregorian weekday,
which is what `Date.getDay` computes), and day arithmetic is iterated
calendar increment.  Timezone-sensitive behaviour (the `T12:00:00` noon
anchor of the export date formatter) is modelled by an explicit
UTC-offset-in-minutes parameter.
-/

namespace Dwmyo

/-- A civil (proleptic Gregorian) calendar date.  `month` is 1-based. -/
structure CivilDate where
  year : Nat
  month : Nat
  day : Nat
deriving DecidableEq, Repr

/-- Gregorian leap-year rule. -/
def isLeapYear (y : Nat) : Bool :=
  (y % 4 == 0 && y % 100 != 0) || y % 400 == 0

/-- Number of days in month `m` (1-based) of year `y`. -/
def daysInMonth (y m : Nat) : Nat :=
  if m = 2 then (if isLeapYear y then 29 else 28)
  else if m = 4 ∨ m = 6 ∨ m = 9 ∨ m = 11 then 30
  else 31

/-- Validity of a civil date (year at least 1 keeps prev-day total). -/
def ValidDate (d : CivilDate) : Prop :=
  1 ≤ d.year ∧ 1 ≤ d.month ∧ d.month ≤ 12 ∧ 1 ≤ d.day ∧ d.day ≤ daysInMonth d.year d.month

instance (d : CivilDate) : Decidable (ValidDate d) := by
  unfold ValidDate; infer_instance

/-- The calendar day after `d` (what JS `setDate(getDate()+1)` computes). -/
def nextDay (d : CivilDate) : CivilDate :=
  if d.day < daysInMonth d.year d.month then ⟨d.year, d.month, d.day + 1⟩
  else if d.month < 12 then ⟨d.year, d.month + 1, 1⟩
  else ⟨d.year + 1, 1, 1⟩

/-- The calendar day before `d`. -/
def prevDay (d : CivilDate) : CivilDate :=
  if 1 < d.day then ⟨d.year, d.month, d.day - 1⟩
  else if 1 < d.month then ⟨d.year, d.month - 1, daysInMonth d.year (d.month - 1)⟩
  else ⟨d.year - 1, 12, 31⟩

/-- `d` plus `n` calendar days. -/
def addDays (d : CivilDate) (n : Nat) : CivilDate := nextDay^[n] d

/-- Strict chronological order on civil dates.  JS compares `Date` objects by
their epoch timestamp; on valid civil dates that order coincides with the
lexicographic order on `(year, month, day)`, which is what we use. -/
def dateLt (a b : CivilDate) : Bool :=
  a.year < b.year ∨ (a.year = b.year ∧ (a.month < b.month ∨ (a.month = b.month ∧ a.day < b.day)))

/-- Day of week, Sunday = 0, via Sakamoto's method (models `Date.getDay`). -/
def weekday (d : CivilDate) : Nat :=
  let t : List Nat := [0, 3, 2, 5, 0, 3, 5, 1, 4, 6, 2, 4]
  let y := if d.month < 3 then d.year - 1 else d.year
  (y + y / 4 - y / 100 + y / 400 + t.getD (d.month - 1) 0 + d.day) % 7

/-- Decimal digit character for `n < 10`. -/
def digitChar (n : Nat) : Char :=
  match n with
  | 0 => '0' | 1 => '1' | 2 => '2' | 3 => '3' | 4 => '4'
  | 5 => '5' | 6 => '6' | 7 => '7' | 8 => '8' | _ => '9'

/-- Decimal digits, fuel-indexed so that it is structurally recursive (the
fuel is always sufficient since a number has at most `n+1` digits). -/
def natDigitsAux : Nat → Nat → List Char → List Char
  | 0, _, acc => acc
  | fuel + 1, n, acc =>
    if n < 10 then digitChar n :: acc
    else natDigitsAux fuel (n / 10) (digitChar (n % 10) :: acc)

/-- Decimal digits of `n` (models JS number-to-string for naturals). -/
def natDigits (n : Nat) : List Char := natDigitsAux (n + 1) n []

/-- JS `String.prototype.padStart(len, c)`. -/
def padStart (len : Nat) (c : Char) (s : List Char) : List Char :=
  List.replicate (len - s.length) c ++ s

/-- Two-digit zero-padded rendering, as in `String(n).padStart(2, "0")`. -/
def pad2 (n : Nat) : List Char := padStart 2 '0' (natDigits n)

/-- ISO `YYYY-MM-DD` rendering of a date (as produced by the template
literals in the source and by `toISOString().split("T")[0]`). -/
def isoDate (d : CivilDate) : List Char :=
  natDigits d.year ++ '-' :: pad2 d.month ++ '-' :: pad2 d.day

/-- The task record (`Todo` in the source).  `date` is kept as a civil date;
the source stores it as its ISO `YYYY-MM-DD` string. -/
structure Todo where
  id : List Char
  text : List Char
  completed : Bool
  date : CivilDate
  category : List Char
  tags : List (List Char)
  pinned : Bool
deriving DecidableEq, Repr

/-- The seed collection `mockTodos` from the source. -/
def mockTodos : List Todo :=
  [ ⟨['1'], "Team standup meeting".data, false, ⟨2024, 1, 15⟩, "work".data,
      ["meeting".data, "team".data], false⟩,
    ⟨['2'], "Review project proposal".data, true, ⟨2024, 1, 15⟩, "work".data,
      ["review".data, "project".data], false⟩,
    ⟨['3'], "Grocery shopping".data, false, ⟨2024, 1, 16⟩, "personal".data,
      ["shopping".data, "errands".data], false⟩,
    ⟨['4'], "Gym workout".data, false, ⟨2024, 1, 16⟩, "health".data,
      ["fitness".data, "routine".data], false⟩,
    ⟨['5'], "Call mom".data, true, ⟨2024, 1, 14⟩, "personal".data,
      ["family".data, "call".data], false⟩ ]

/-- `autoMoveUncompletedTasks` from the source, with the ambient state made
explicit: `today` is `new Date().toISOString().split("T")[0]` (as a civil
date), `lastCheck` is the persisted `dwmyo-last-auto-move-check` marker, and
the result is the new todo list paired with the new marker.  The source
fetches `todos` from component state and writes with `setTodos` /
`localStorage.setItem`; here they are threaded as arguments and results. -/
def autoMoveUncompletedTasks (today : CivilDate) (todos : List Todo)
    (lastCheck : Option CivilDate) : List Todo × Option CivilDate :=
  -- Only run once per day
  if lastCheck = some today then (todos, lastCheck)
  else
    -- Find all uncompleted tasks from previous days (not today)
    let uncompletedFromPast := todos.filter fun todo => !todo.completed && dateLt todo.date today
    if 0 < uncompletedFromPast.length then
      -- Move all uncompleted tasks from past days to today
      let updatedTodos := todos.map fun todo =>
        if !todo.completed && dateLt todo.date today then { todo with date := today } else todo
      (updatedTodos, some today)
    else
      -- Still mark that we've checked today even if no moves were needed
      (todos, some today)

/-- `new Date(year, monthIdx, 0).getDate()`: JS normalizes month index
overflow, and day `0` denotes the day before the first of the (normalized)
month, so the result is the length of the civil month numbered `monthIdx`
(1-based), rolling into the previous year for `monthIdx ≤ 0`. -/
def newDateDayZeroGetDate (year : Nat) (monthIdx : Int) : Nat :=
  if 1 ≤ monthIdx then daysInMonth year monthIdx.toNat
  else daysInMonth (year - 1) (monthIdx + 12).toNat

/-- A cell of the month grid (`calendarDays` entries in `renderCalendarView`). -/
structure CalendarCell where
  date : List Char
  day : Nat
  isCurrentMonth : Bool
  isToday : Bool
deriving DecidableEq, Repr

/-- The `calendarDays` array built by `renderCalendarView` for the focused
month `(viewYear, viewMonth)` (`viewMonth` is 0-based as in JS).  `today` is
`new Date().toISOString().split("T")[0]`. -/
def calendarDays (viewYear viewMonth : Nat) (today : List Char) : List CalendarCell :=
  let firstDayOfWeek := weekday ⟨viewYear, viewMonth + 1, 1⟩
  let daysInM := daysInMonth viewYear (viewMonth + 1)
  let daysFromPrevMonth := firstDayOfWeek
  let totalCells := ((daysInM + daysFromPrevMonth + 6) / 7) * 7
  -- Previous month days: `const prevMonth = new Date(viewYear, viewMonth - 1, 0)`
  let prevMonthDate := newDateDayZeroGetDate viewYear ((viewMonth : Int) - 1)
  let prevCells := (List.range daysFromPrevMonth).map fun j =>
    let i := daysFromPrevMonth - 1 - j
    let day := prevMonthDate - i
    let year := if viewMonth = 0 then viewYear - 1 else viewYear
    let month := if viewMonth = 0 then 11 else viewMonth - 1
    { date := natDigits year ++ '-' :: pad2 (month + 1) ++ '-' :: pad2 day,
      day := day, isCurrentMonth := false, isToday := false : CalendarCell }
  -- Current month days
  let currCells := (List.range daysInM).map fun j =>
    let day := j + 1
    let dateString := natDigits viewYear ++ '-' :: pad2 (viewMonth + 1) ++ '-' :: pad2 day
    { date := dateString, day := day, isCurrentMonth := true,
      isToday := decide (dateString = today) : CalendarCell }
  -- Next month days (`remainingCells = totalCells - calendarDays.length`)
  let nextCells := (List.range (totalCells - (daysFromPrevMonth + daysInM))).map fun j =>
    let day := j + 1
    let year := if viewMonth = 11 then viewYear + 1 else viewYear
    let month := if viewMonth = 11 then 0 else viewMonth + 1
    { date := natDigits year ++ '-' :: pad2 (month + 1) ++ '-' :: pad2 day,
      day := day, isCurrentMonth := false, isToday := false : CalendarCell }
  prevCells ++ currCells ++ nextCells

/-- The `next7Days` date list of `renderOverviewView`: the dates at offsets
1–7 from the reference date (the loop `for i = 1..7` pushing
`new Date()` plus `i` days, rendered and collected). -/
def next7Days (ref : CivilDate) : List CivilDate :=
  (List.range' 1 7).map (addDays ref)

/-- The `next28Days` date list: offsets 8–28 (excluding the first window). -/
def next28Days (ref : CivilDate) : List CivilDate :=
  (List.range' 8 21).map (addDays ref)

/-- The `next365Days` date list: offsets 29–365 (excluding the first 28). -/
def next365Days (ref : CivilDate) : List CivilDate :=
  (List.range' 29 337).map (addDays ref)

/-- A timestamp as held by a JS `Date`, at minute precision: the UTC civil
date together with the minute within that UTC day. -/
structure Instant where
  utcDate : CivilDate
  utcMinute : Int
deriving DecidableEq, Repr

/-- `new Date(dateString + "T12:00:00")`: local noon on day `d`, for a host
whose UTC offset is `o` minutes east of UTC (real offsets satisfy
`|o| ≤ 840`, so at most one day of normalization is needed). -/
def dateAtLocalNoon (d : CivilDate) (o : Int) : Instant :=
  let m := 720 - o
  if m < 0 then ⟨prevDay d, m + 1440⟩
  else if 1440 ≤ m then ⟨nextDay d, m - 1440⟩
  else ⟨d, m⟩

/-- The local civil date read back from an instant by the local getters
`getFullYear` / `getMonth` / `getDate` under offset `o`. -/
def localCivilDate (t : Instant) (o : Int) : CivilDate :=
  let m := t.utcMinute + o
  if m < 0 then prevDay t.utcDate
  else if 1440 ≤ m then nextDay t.utcDate
  else t.utcDate

/-- `formatDate` inside `exportToICS`: anchor the date at local noon, then
extract local year/month/day and render `YYYYMMDD` (year unpadded, month
and day two-digit padded). -/
def exportFormatDate (d : CivilDate) (o : Int) : List Char :=
  let date := localCivilDate (dateAtLocalNoon d o) o
  natDigits date.year ++ pad2 date.month ++ pad2 date.day

/-- The JS whitespace class used by `trim` and `\s` (ASCII part; the code
paths modelled here never produce the exotic Unicode spaces). -/
def isSpaceJS (c : Char) : Bool :=
  c = ' ' ∨ c = '\t' ∨ c = '\n' ∨ c = Char.ofNat 11 ∨ c = Char.ofNat 12 ∨ c = '\r'

/-- Left trim. -/
def ltrim (s : List Char) : List Char := s.dropWhile isSpaceJS

/-- Right trim. -/
def rtrim (s : List Char) : List Char := (s.reverse.dropWhile isSpaceJS).reverse

/-- JS `String.prototype.trim`. -/
def trim (s : List Char) : List Char := ltrim (rtrim s)

/-- JS `String.prototype.replace(/c/g, rep)` for a single-character pattern:
every occurrence of `c` is replaced by `rep`, left to right, and the
replacement is not rescanned. -/
def jsReplaceAll (c : Char) (rep : List Char) : List Char → List Char
  | [] => []
  | x :: rest => (if x = c then rep else [x]) ++ jsReplaceAll c rep rest

/-- `escapeText` of `exportToICS`: backslash doubled first, then `;`, `,`
and newline escaped (each replacement in source order, innermost first). -/
def escapeText (text : List Char) : List Char :=
  jsReplaceAll '\n' ['\\', 'n']
    (jsReplaceAll ',' ['\\', ',']
      (jsReplaceAll ';' ['\\', ';']
        (jsReplaceAll '\\' ['\\', '\\'] text)))

/-- `Array.prototype.join(", ")` over the tag list. -/
def joinComma : List (List Char) → List Char
  | [] => []
  | [t] => t
  | t :: rest => t ++ ", ".data ++ joinComma rest

/-- `Array.prototype.join("\r\n")` over the collected ICS lines. -/
def joinCRLF : List (List Char) → List Char
  | [] => []
  | [l] => l
  | l :: rest => l ++ ['\r', '\n'] ++ joinCRLF rest

/-- The five header lines pushed before the event blocks. -/
def icsHeaderLines : List (List Char) :=
  ["BEGIN:VCALENDAR".data, "VERSION:2.0".data, "PRODID:-//DWMYO//DWMYO//EN".data,
   "CALSCALE:GREGORIAN".data, "METHOD:PUBLISH".data]

/-- The event block emitted by `exportToICS` for one todo.  `stamp` is the
`DTSTAMP` value (`formatDateTime()`, read from the clock) and `tzOffset` is
the host's UTC offset in minutes (used by `formatDate`'s noon anchoring).
In the template literal for the description, `\\n` denotes a literal
backslash followed by `n` (two characters), exactly as in the JS source. -/
def todoEventLines (todo : Todo) (stamp : List Char) (tzOffset : Int) : List (List Char) :=
  [ "BEGIN:VEVENT".data,
    "UID:todo-".data ++ todo.id ++ "@dwmyo.app".data,
    "DTSTAMP:".data ++ stamp,
    "DTSTART;VALUE=DATE:".data ++ exportFormatDate todo.date tzOffset,
    "SUMMARY:".data ++ escapeText todo.text,
    "DESCRIPTION:".data ++ escapeText
      ("Category: ".data ++ todo.category ++ ['\\', 'n'] ++
       "Tags: ".data ++ joinComma todo.tags ++ ['\\', 'n'] ++
       "Completed: ".data ++ (if todo.completed then "Yes".data else "No".data)),
    "CATEGORIES:".data ++ todo.category,
    "STATUS:".data ++ (if todo.completed then "COMPLETED".data else "CONFIRMED".data),
    "END:VEVENT".data ]

/-- `exportToICS`: header, one event block per task in input order, footer,
joined with CRLF. -/
def exportToICS (todos : List Todo) (stamp : List Char) (tzOffset : Int) : List Char :=
  joinCRLF (icsHeaderLines
    ++ (todos.map fun todo => todoEventLines todo stamp tzOffset).join
    ++ ["END:VCALENDAR".data])

/-- `icsContent.split(/\r?\n/)`: a line break is `\r\n` or a bare `\n`; a
bare `\r` is not a separator. -/
def splitLines : List Char → List (List Char)
  | [] => [[]]
  | '\r' :: '\n' :: rest => [] :: splitLines rest
  | '\n' :: rest => [] :: splitLines rest
  | c :: rest =>
    match splitLines rest with
    | [] => [[c]]
    | l :: ls => (c :: l) :: ls

/-- The decoder's accumulator (`currentEvent : Partial<Todo>`), seeded with
the decoder defaults.  The freshly minted `id`
(`Date.now().toString() + Math.random()...`) is clock/randomness dependent
and is not modelled; the round-trip claim explicitly exempts identifiers. -/
structure ParsedTodo where
  text : Option (List Char) := none
  date : Option (List Char) := none
  completed : Bool := false
  category : List Char := "personal".data
  tags : List (List Char) := []
  pinned : Bool := false
deriving DecidableEq, Repr

/-- `value.replace(/T.*/, "")`: delete from the first `T` up to the next
line terminator (`.` matches neither `\n` nor `\r`; a split line never
contains `\n`), leaving the remainder untouched (non-global replace). -/
def stripTimePart : List Char → List Char
  | [] => []
  | c :: rest =>
    if c = 'T' then rest.dropWhile (fun x => x ≠ '\r')
    else c :: stripTimePart rest

/-- `dateValue.match(/^\d{8}$/)`. -/
def isEightDigits (s : List Char) : Bool :=
  s.length = 8 && s.all (fun c => c.isDigit)

/-- `value.replace(/\\n/g, "\n")`: each literal backslash-`n` pair becomes a
newline, scanning left to right without rescanning. -/
def unescapeNewlines : List Char → List Char
  | [] => []
  | '\\' :: 'n' :: rest => '\n' :: unescapeNewlines rest
  | c :: rest => c :: unescapeNewlines rest

/-- JS `String.prototype.split(sep)` for a single-character separator. -/
def splitOnChar (sep : Char) : List Char → List (List Char)
  | [] => [[]]
  | c :: rest =>
    if c = sep then [] :: splitOnChar sep rest
    else
      match splitOnChar sep rest with
      | [] => [[c]]
      | l :: ls => (c :: l) :: ls

/-- The suffix match for `\s*([^\n]+)` starting at a given backtracking
position `k` (positions `k, k-1, …, 0`, i.e. greedy `\s*` with
backtracking); the capture is the maximal run of non-newline characters. -/
def wsCaptureFrom (t : List Char) : Nat → Option (List Char)
  | 0 =>
    match t.head? with
    | some c => if c ≠ '\n' then some (t.takeWhile (fun x => x ≠ '\n')) else none
    | none => none
  | k + 1 =>
    let tl := t.drop (k + 1)
    match tl.head? with
    | some c =>
      if c ≠ '\n' then some (tl.takeWhile (fun x => x ≠ '\n'))
      else wsCaptureFrom t k
    | none => wsCaptureFrom t k

/-- `\s*([^\n]+)` at a fixed position: greedy whitespace first. -/
def wsCapture (t : List Char) : Option (List Char) :=
  wsCaptureFrom t (t.takeWhile isSpaceJS).length

/-- `\s*(Yes|No)` at a fixed position.  Since `Y` and `N` are not
whitespace, only the maximal-whitespace position can succeed, so no
backtracking is required. -/
def ynCapture (t : List Char) : Option (List Char) :=
  let tl := t.drop (t.takeWhile isSpaceJS).length
  if "Yes".data.isPrefixOf tl then some "Yes".data
  else if "No".data.isPrefixOf tl then some "No".data
  else none

/-- Leftmost-match regex search: scan for the literal `lit` followed by a
successful suffix match `capAt`; on failure continue at the next position
(the shape of the three `description.match(...)` regexes). -/
def scanFor (lit : List Char) (capAt : List Char → Option (List Char)) :
    List Char → Option (List Char)
  | [] => none
  | s@(_ :: rest) =>
    if lit.isPrefixOf s then
      match capAt (s.drop lit.length) with
      | some cap => some cap
      | none => scanFor lit capAt rest
    else scanFor lit capAt rest

/-- `description.match(/Category:\s*([^\n]+)/)`, capture group. -/
def findCategory (desc : List Char) : Option (List Char) :=
  scanFor "Category:".data wsCapture desc

/-- `description.match(/Tags:\s*([^\n]+)/)`, capture group. -/
def findTags (desc : List Char) : Option (List Char) :=
  scanFor "Tags:".data wsCapture desc

/-- `description.match(/Completed:\s*(Yes|No)/)`, capture group. -/
def findCompleted (desc : List Char) : Option (List Char) :=
  scanFor "Completed:".data ynCapture desc

/-- Field extraction for one (trimmed, colon-containing) line inside an
event block: split at the first colon, then prefix-match the key against
`SUMMARY`, `DTSTART`, `DESCRIPTION`, `STATUS`, `CATEGORIES` in source
order. -/
def processLine (ev : ParsedTodo) (trimmedLine : List Char) : ParsedTodo :=
  let key := trimmedLine.takeWhile (fun c => c ≠ ':')
  let value := (trimmedLine.dropWhile (fun c => c ≠ ':')).drop 1
  if "SUMMARY".data.isPrefixOf key then
    { ev with text := some value }
  else if "DTSTART".data.isPrefixOf key then
    let dateValue := stripTimePart value
    if isEightDigits dateValue then
      { ev with date := some (dateValue.take 4 ++ '-' :: (dateValue.drop 4).take 2
          ++ '-' :: (dateValue.drop 6).take 2) }
    else ev
  else if "DESCRIPTION".data.isPrefixOf key then
    let description := unescapeNewlines value
    let ev1 :=
      match findCategory description with
      | some cap => { ev with category := trim cap }
      | none => ev
    let ev2 :=
      match findTags description with
      | some cap =>
        { ev1 with tags := (((splitOnChar ',' cap).map trim).filter
            fun tag => !tag.isEmpty) }
      | none => ev1
    match findCompleted description with
    | some cap => { ev2 with completed := decide (cap = "Yes".data) }
    | none => ev2
  else if "STATUS".data.isPrefixOf key then
    { ev with completed := decide (value = "COMPLETED".data) }
  else if "CATEGORIES".data.isPrefixOf key then
    { ev with category := value }
  else ev

/-- JS truthiness of an optional string field (`undefined` and `""` are
falsy). -/
def truthyStr : Option (List Char) → Bool
  | some s => !s.isEmpty
  | none => false

/-- The decoder's line loop: `BEGIN:VEVENT` opens a fresh accumulator,
`END:VEVENT` commits it when both `text` and `date` are truthy (discarding
it silently otherwise), and any other colon-containing line inside an event
is field-extracted. -/
def parseLinesLoop : List (List Char) → Option ParsedTodo → List ParsedTodo
  | [], _ => []
  | line :: rest, currentEvent =>
    let trimmedLine := trim line
    if trimmedLine = "BEGIN:VEVENT".data then
      parseLinesLoop rest (some {})
    else
      match currentEvent with
      | some ev =>
        if trimmedLine = "END:VEVENT".data then
          if truthyStr ev.text && truthyStr ev.date then
            ev :: parseLinesLoop rest none
          else
            parseLinesLoop rest none
        else if trimmedLine.contains ':' then
          parseLinesLoop rest (some (processLine ev trimmedLine))
        else
          parseLinesLoop rest (some ev)
      | none => parseLinesLoop rest none

/-- `parseICS`. -/
def parseICS (icsContent : List Char) : List ParsedTodo :=
  parseLinesLoop (splitLines icsContent) none

/-- The per-task update applied by an ungated rollover run. -/
def rolloverStep (today : CivilDate) (todo : Todo) : Todo :=
  if !todo.completed && dateLt todo.date today then { todo with date := today } else todo

/-- The persist-on-change effect of the app component: the stored payload is
overwritten with the current collection only when the collection is
non-empty (`if (todos.length > 0) saveTodosToStorage(todos)`). -/
def persistTodosEffect (todos : List Todo) (stored : Option (List Todo)) :
    Option (List Todo) :=
  if 0 < todos.length then some todos else stored

/-- A line-terminator–free character (neither `\n` nor `\r`). -/
def plainChar (c : Char) : Prop := c ≠ '\n' ∧ c ≠ '\r'

instance (c : Char) : Decidable (plainChar c) := by
  unfold plainChar
  infer_instance

/-- A well-formed event block for the malformed-event-tolerance statement:
a summary line, an optional date-start line, between `BEGIN`/`END`
markers. -/
structure EventBlockSpec where
  summary : List Char
  dtstart : Option (List Char)

/-- The lines of such a block. -/
def specBlockLines (b : EventBlockSpec) : List (List Char) :=
  "BEGIN:VEVENT".data :: ("SUMMARY:".data ++ b.summary)
    :: (match b.dtstart with
        | some ds => ["DTSTART;VALUE=DATE:".data ++ ds, "END:VEVENT".data]
        | none => ["END:VEVENT".data])

/-- The event the decoder commits for such a block (when it commits one). -/
def specBlockEvent (b : EventBlockSpec) : ParsedTodo :=
  { text := some b.summary,
    date :=
      match b.dtstart with
      | some ds => some (ds.take 4 ++ '-' :: (ds.drop 4).take 2
          ++ '-' :: (ds.drop 6).take 2)
      | none => none }

/-- A full ICS document made of such blocks. -/
def specDocument (blocks : List EventBlockSpec) : List Char :=
  joinCRLF (icsHeaderLines ++ (blocks.map specBlockLines).join ++ ["END:VCALENDAR".data])

/-- The escaped tag join as it appears inside the emitted description:
`", "` separators with the comma escaped (`"\, "`). -/
def escTagsJoin : List (List Char) → List Char
  | [] => []
  | [t] => t
  | t :: rest => t ++ '\\' :: ',' :: ' ' :: escTagsJoin rest

/-- What one exported task decodes back to (identifier aside): `text`,
`date` (re-rendered ISO), `category` and `completed` survive; `pinned` is
reset; each tag comes back with one trailing backslash appended (and an
empty tag list comes back as a single lone-backslash tag), because the
encoder's description separators double-escape and the decoder never
unescapes `\,`. -/
def decodedTodo (todo : Todo) : ParsedTodo :=
  { text := some todo.text,
    date := some (isoDate todo.date),
    completed := todo.completed,
    category := todo.category,
    tags :=
      match todo.tags with
      | [] => [['\\']]
      | ts => ts.map fun t => t ++ ['\\'],
    pinned := false }

/-- Free of the characters the encoder escapes (plus `\r`, which the
line-splitter and `trim` treat specially). -/
def cleanText (s : List Char) : Prop :=
  ∀ c ∈ s, c ≠ '\\' ∧ c ≠ ';' ∧ c ≠ ',' ∧ c ≠ '\n' ∧ c ≠ '\r'

instance (s : List Char) : Decidable (cleanText s) := by
  unfold cleanText
  infer_instance

/-- The cleanliness demanded of a task for the (amended) round-trip: clean
non-empty right-trimmed text; clean colon-free right-trimmed category;
clean, colon-free, fully trimmed, non-empty tags; terminator-free id; a
valid four-digit-year date. -/
def CleanTodo (t : Todo) : Prop :=
  t.text ≠ [] ∧ cleanText t.text ∧ rtrim t.text = t.text ∧
  cleanText t.category ∧ (∀ c ∈ t.category, c ≠ ':') ∧ rtrim t.category = t.category ∧
  (∀ tag ∈ t.tags, tag ≠ [] ∧ cleanText tag ∧ (∀ c ∈ tag, c ≠ ':') ∧ trim tag = tag) ∧
  (∀ c ∈ t.id, plainChar c) ∧
  ValidDate t.date ∧ 1000 ≤ t.date.year ∧ t.date.year ≤ 9999

instance (t : Todo) : Decidable (CleanTodo t) := by
  unfold CleanTodo
  infer_instance

/-- `next7DaysTodos` (before the text/tag filter): tasks whose date is a
member of the `next7Days` date list. -/
def next7DaysTodos (todos : List Todo) (ref : CivilDate) : List Todo :=
  todos.filter fun todo => decide (todo.date ∈ next7Days ref)

/-- `next28DaysTodos` (before the text/tag filter). -/
def next28DaysTodos (todos : List Todo) (ref : CivilDate) : List Todo :=
  todos.filter fun todo => decide (todo.date ∈ next28Days ref)

/-- `next365DaysTodos` (before the text/tag filter): membership in the
`next365Days` date list and additionally `todo.pinned`. -/
def next365DaysTodos (todos : List Todo) (ref : CivilDate) : List Todo :=
  todos.filter fun todo => decide (todo.date ∈ next365Days ref) && todo.pinned

end Dwmyo

namespace Dwmyo

/-- After any invocation of the rollover, the marker equals `some today`. -/
theorem autoMove_marker (today : CivilDate) (todos : List Todo) (last : Option CivilDate)
    (h : last ≠ some today) : (autoMoveUncompletedTasks today todos last).2 = some today := by
  unfold autoMoveUncompletedTasks
  rw [if_neg h]
  simp only []
  split <;> rfl

/-- `dateLt` is irreflexive. -/
theorem dateLt_irrefl (d : CivilDate) : dateLt d d = false := by
  simp [dateLt]

/-- An ungated rollover run maps `rolloverStep` over the collection (also in
the branch where nothing moves, since the map is then the identity). -/
theorem autoMove_todos_eq (today : CivilDate) (todos : List Todo) (last : Option CivilDate)
    (h : last ≠ some today) :
    (autoMoveUncompletedTasks today todos last).1 = todos.map (rolloverStep today) := by
  unfold autoMoveUncompletedTasks
  rw [if_neg h]
  simp only []
  split
  · rfl
  · rename_i hlen
    have hall : ∀ t ∈ todos, rolloverStep today t = id t := by
      intro t ht
      have hnc : ¬(!t.completed && dateLt t.date today) := by
        intro hc
        exact hlen (List.length_pos.mpr
          (List.ne_nil_of_mem (List.mem_filter.mpr ⟨ht, hc⟩)))
      simp only [rolloverStep, id_eq]
      rw [if_neg hnc]
    calc todos = todos.map id := (List.map_id todos).symm
      _ = todos.map (rolloverStep today) := (List.map_congr_left hall).symm

/-- The rollover is skipped entirely when the marker already equals today. -/
theorem autoMove_gated (today : CivilDate) (todos : List Todo) (last : Option CivilDate)
    (h : last = some today) : autoMoveUncompletedTasks today todos last = (todos, last) := by
  unfold autoMoveUncompletedTasks
  rw [if_pos h]

/-- Pointwise form of `autoMove_todos_eq`. -/
theorem autoMove_get (today : CivilDate) (todos : List Todo) (last : Option CivilDate)
    (h : last ≠ some today) (i : Nat) (hi : i < todos.length)
    (hi2 : i < (autoMoveUncompletedTasks today todos last).1.length) :
    (autoMoveUncompletedTasks today todos last).1.get ⟨i, hi2⟩
      = rolloverStep today (todos.get ⟨i, hi⟩) := by
  have hmap := autoMove_todos_eq today todos last h
  have h2 : i < (todos.map (rolloverStep today)).length := by
    rw [List.length_map]; exact hi
  have e1 : (autoMoveUncompletedTasks today todos last).1.get ⟨i, hi2⟩
      = (todos.map (rolloverStep today)).get ⟨i, h2⟩ := by
    exact List.get_of_eq hmap ⟨i, hi2⟩
  rw [e1, List.get_map]

/-- C3.  One ungated rollover run (the persisted marker differs from today)
reassigns to today exactly the dates of uncompleted tasks strictly earlier
than today; the count is preserved, each task keeps its position and every
field other than `date`, tasks that are completed or not in the past are
entirely unchanged, and the marker is set to today unconditionally. -/
theorem rollover_moves_exactly_overdue (today : CivilDate) (todos : List Todo)
    (last : Option CivilDate) (h : last ≠ some today) :
    (autoMoveUncompletedTasks today todos last).2 = some today ∧
    (autoMoveUncompletedTasks today todos last).1.length = todos.length ∧
    ∀ i (hi : i < todos.length) (hi2 : i < (autoMoveUncompletedTasks today todos last).1.length),
      let t := todos.get ⟨i, hi⟩
      let t2 := (autoMoveUncompletedTasks today todos last).1.get ⟨i, hi2⟩
      t2.id = t.id ∧ t2.text = t.text ∧ t2.completed = t.completed ∧
      t2.category = t.category ∧ t2.tags = t.tags ∧ t2.pinned = t.pinned ∧
      t2.date = (if !t.completed && dateLt t.date today then today else t.date) ∧
      ((t.completed = true ∨ dateLt t.date today = false) → t2 = t) := by
  have hmap := autoMove_todos_eq today todos last h
  refine ⟨autoMove_marker today todos last h, ?_, ?_⟩
  · rw [hmap, List.length_map]
  · intro i hi hi2
    have hget := autoMove_get today todos last h i hi hi2
    simp only [hget, rolloverStep]
    constructor
    · split <;> rfl
    constructor
    · split <;> rfl
    constructor
    · split <;> rfl
    constructor
    · split <;> rfl
    constructor
    · split <;> rfl
    constructor
    · split <;> rfl
    constructor
    · split <;> rfl
    · intro hcase
      have hnc : ¬(!(todos.get ⟨i, hi⟩).completed && dateLt (todos.get ⟨i, hi⟩).date today) := by
        intro hand
        rw [Bool.and_eq_true] at hand
        rcases hcase with hc | hc
        · rw [hc] at hand; simp at hand
        · rw [hc] at hand; simp at hand
      rw [if_neg hnc]

/-- Witness for C3 at a concrete input: the end-to-end scenario of the spec,
task dated 2024-01-14 (uncompleted) with reference date 2024-01-16. -/
theorem rollover_moves_exactly_overdue_witness :
    ((none : Option CivilDate) ≠ some ⟨2024, 1, 16⟩) ∧
    ((autoMoveUncompletedTasks ⟨2024, 1, 16⟩ mockTodos none).2 = some ⟨2024, 1, 16⟩ ∧
     (autoMoveUncompletedTasks ⟨2024, 1, 16⟩ mockTodos none).1.length = mockTodos.length ∧
     ∀ i (hi : i < mockTodos.length)
       (hi2 : i < (autoMoveUncompletedTasks ⟨2024, 1, 16⟩ mockTodos none).1.length),
       let t := mockTodos.get ⟨i, hi⟩
       let t2 := (autoMoveUncompletedTasks ⟨2024, 1, 16⟩ mockTodos none).1.get ⟨i, hi2⟩
       t2.id = t.id ∧ t2.text = t.text ∧ t2.completed = t.completed ∧
       t2.category = t.category ∧ t2.tags = t.tags ∧ t2.pinned = t.pinned ∧
       t2.date = (if !t.completed && dateLt t.date ⟨2024, 1, 16⟩ then ⟨2024, 1, 16⟩ else t.date) ∧
       ((t.completed = true ∨ dateLt t.date ⟨2024, 1, 16⟩ = false) → t2 = t)) :=
  ⟨by simp, rollover_moves_exactly_overdue ⟨2024, 1, 16⟩ mockTodos none (by simp)⟩

/-- C6.  Rollover idempotence within a day: after one invocation the marker
equals today, so a second invocation on the same day returns the state
unchanged; and a task whose date already equals today is never modified. -/
theorem rollover_idempotent_within_day (today : CivilDate) (todos : List Todo)
    (last : Option CivilDate) :
    autoMoveUncompletedTasks today (autoMoveUncompletedTasks today todos last).1
        (autoMoveUncompletedTasks today todos last).2
      = autoMoveUncompletedTasks today todos last ∧
    ∀ i (hi : i < todos.length)
      (hi2 : i < (autoMoveUncompletedTasks today todos last).1.length),
      (todos.get ⟨i, hi⟩).date = today →
      (autoMoveUncompletedTasks today todos last).1.get ⟨i, hi2⟩ = todos.get ⟨i, hi⟩ := by
  by_cases hgate : last = some today
  · have hr := autoMove_gated today todos last hgate
    constructor
    · rw [hr]
      exact autoMove_gated today todos last hgate
    · intro i hi hi2 _
      have : (autoMoveUncompletedTasks today todos last).1.get ⟨i, hi2⟩
          = todos.get ⟨i, hi⟩ := List.get_of_eq (by rw [hr]) ⟨i, hi2⟩
      exact this
  · have hm := autoMove_marker today todos last hgate
    constructor
    · rw [autoMove_gated today _ _ hm]
    · intro i hi hi2 hdate
      have hget := autoMove_get today todos last hgate i hi hi2
      rw [hget, rolloverStep, hdate, dateLt_irrefl]
      simp

/-- Witness for C6 at a concrete input (task 1 of the seed data is dated
2024-01-15, which we take as today). -/
theorem rollover_idempotent_within_day_witness :
    autoMoveUncompletedTasks ⟨2024, 1, 15⟩
        (autoMoveUncompletedTasks ⟨2024, 1, 15⟩ mockTodos none).1
        (autoMoveUncompletedTasks ⟨2024, 1, 15⟩ mockTodos none).2
      = autoMoveUncompletedTasks ⟨2024, 1, 15⟩ mockTodos none ∧
    ∀ i (hi : i < mockTodos.length)
      (hi2 : i < (autoMoveUncompletedTasks ⟨2024, 1, 15⟩ mockTodos none).1.length),
      (mockTodos.get ⟨i, hi⟩).date = ⟨2024, 1, 15⟩ →
      (autoMoveUncompletedTasks ⟨2024, 1, 15⟩ mockTodos none).1.get ⟨i, hi2⟩
        = mockTodos.get ⟨i, hi⟩ :=
  rollover_idempotent_within_day ⟨2024, 1, 15⟩ mockTodos none

/-- C10.  The persist effect saves only non-empty collections: running it
with an empty collection leaves the stored payload unchanged, running it
with a non-empty collection stores that collection, and across any history
of collection states a stored payload that was never empty can never become
empty. -/
theorem persist_skips_empty :
    (∀ stored, persistTodosEffect [] stored = stored) ∧
    (∀ todos stored, todos ≠ [] → persistTodosEffect todos stored = some todos) ∧
    (∀ (history : List (List Todo)) (stored : Option (List Todo)),
      (∀ l, stored = some l → l ≠ []) →
      ∀ l, history.foldl (fun s ts => persistTodosEffect ts s) stored = some l → l ≠ []) := by
  refine ⟨fun stored => by simp [persistTodosEffect], ?_, ?_⟩
  · intro todos stored h
    have : 0 < todos.length := List.length_pos.mpr h
    simp [persistTodosEffect, this]
  · intro history
    induction history with
    | nil => intro stored hst l hl; exact hst l hl
    | cons ts rest ih =>
      intro stored hst l hl
      refine ih (persistTodosEffect ts stored) ?_ l hl
      intro l' hl'
      by_cases hts : 0 < ts.length
      · simp [persistTodosEffect, hts] at hl'
        subst hl'
        exact List.ne_nil_of_length_pos hts
      · simp [persistTodosEffect, hts] at hl'
        exact hst l' hl'

/-- Witness for C10: deleting the last task (collection becomes `[]`) leaves
the previously saved non-empty collection in place. -/
theorem persist_skips_empty_witness :
    persistTodosEffect [] (some mockTodos) = some mockTodos ∧
    persistTodosEffect mockTodos none = some mockTodos ∧
    ([mockTodos, []].foldl (fun s ts => persistTodosEffect ts s) none ≠ some []) :=
  ⟨persist_skips_empty.1 (some mockTodos),
   persist_skips_empty.2.1 mockTodos none (by simp [mockTodos]),
   fun hc => persist_skips_empty.2.2 [mockTodos, []] none (by simp) [] hc rfl⟩

/-- Every month has at least 28 days (so at least one). -/
theorem one_le_daysInMonth (y m : Nat) : 1 ≤ daysInMonth y m := by
  unfold daysInMonth
  split
  · split <;> omega
  · split <;> omega

/-- C8.  Month-grid exactness: for focused month with first weekday `W` and
`D` days, the grid has `ceil((D+W)/7)*7` cells (as naturals,
`((D+W+6)/7)*7`), the first `W` cells are not in the focused month, and the
cell at index `W` (the `W+1`-st cell) is day 1 of the focused month. -/
theorem month_grid_shape (viewYear viewMonth : Nat) (today : List Char) :
    (calendarDays viewYear viewMonth today).length
      = ((daysInMonth viewYear (viewMonth + 1) + weekday ⟨viewYear, viewMonth + 1, 1⟩ + 6) / 7) * 7 ∧
    ((calendarDays viewYear viewMonth today).take (weekday ⟨viewYear, viewMonth + 1, 1⟩)).length
      = weekday ⟨viewYear, viewMonth + 1, 1⟩ ∧
    (∀ c ∈ (calendarDays viewYear viewMonth today).take (weekday ⟨viewYear, viewMonth + 1, 1⟩),
      c.isCurrentMonth = false) ∧
    ((calendarDays viewYear viewMonth today).drop (weekday ⟨viewYear, viewMonth + 1, 1⟩)).head?
      = some { date := natDigits viewYear ++ '-' :: pad2 (viewMonth + 1) ++ '-' :: pad2 1,
               day := 1, isCurrentMonth := true,
               isToday :=
                 decide ((natDigits viewYear ++ '-' :: pad2 (viewMonth + 1) ++ '-' :: pad2 1)
                   = today) } := by
  have hD1 := one_le_daysInMonth viewYear (viewMonth + 1)
  unfold calendarDays
  simp only []
  refine ⟨?_, ?_, ?_, ?_⟩
  · simp only [List.length_append, List.length_map, List.length_range]
    omega
  · simp only [List.length_take, List.length_append, List.length_map, List.length_range]
    omega
  · intro c hc
    rw [List.append_assoc, List.take_left' (by simp)] at hc
    simp only [List.mem_map] at hc
    obtain ⟨j, _, rfl⟩ := hc
    rfl
  · rw [List.append_assoc, List.drop_left' (by simp)]
    obtain ⟨D', hD'⟩ : ∃ k, daysInMonth viewYear (viewMonth + 1) = k + 1 :=
      ⟨daysInMonth viewYear (viewMonth + 1) - 1, by omega⟩
    rw [hD', List.range_succ_eq_map]
    simp

/-- C2 (code bug).  For March 2024 (`viewYear=2024`, `viewMonth=2`) the five
leading cells of the grid are dated `2024-02-27` … `2024-02-31`, although
February 2024 has 29 days — so the cells `2024-02-30` and `2024-02-31` are
not actual days, and the genuine trailing days of the previous month are
February 25–29 (the five days preceding March 1).  The slip is
`new Date(viewYear, viewMonth - 1, 0)`, which measures the month two before
the focused one instead of the previous month. -/
theorem calendar_prev_cells_not_real_days :
    ((calendarDays 2024 2 (isoDate ⟨2024, 3, 15⟩)).take 5).map (fun c => c.date)
      = ["2024-02-27".data, "2024-02-28".data, "2024-02-29".data,
         "2024-02-30".data, "2024-02-31".data] ∧
    daysInMonth 2024 2 = 29 ∧
    ¬ ValidDate ⟨2024, 2, 31⟩ ∧
    weekday ⟨2024, 3, 1⟩ = 5 ∧
    (List.range 5).map (fun j => prevDay^[j + 1] ⟨2024, 3, 1⟩)
      = [⟨2024, 2, 29⟩, ⟨2024, 2, 28⟩, ⟨2024, 2, 27⟩, ⟨2024, 2, 26⟩, ⟨2024, 2, 25⟩] := by
  decide

/-- `nextDay` preserves validity. -/
theorem validDate_nextDay {d : CivilDate} (h : ValidDate d) : ValidDate (nextDay d) := by
  obtain ⟨hy, hm1, hm2, hd1, hd2⟩ := h
  unfold nextDay
  split
  · refine ⟨hy, hm1, hm2, ?_, ?_⟩
    · show 1 ≤ d.day + 1
      omega
    · show d.day + 1 ≤ daysInMonth d.year d.month
      omega
  · split
    · refine ⟨hy, ?_, ?_, le_refl 1, one_le_daysInMonth _ _⟩
      · show 1 ≤ d.month + 1
        omega
      · show d.month + 1 ≤ 12
        omega
    · refine ⟨?_, le_refl 1, ?_, le_refl 1, one_le_daysInMonth _ _⟩
      · show 1 ≤ d.year + 1
        omega
      · show (1 : Nat) ≤ 12
        omega

/-- Iterated `nextDay` preserves validity. -/
theorem validDate_iterate {d : CivilDate} (h : ValidDate d) (n : Nat) :
    ValidDate (nextDay^[n] d) := by
  induction n with
  | zero => exact h
  | succ k ih => rw [Function.iterate_succ_apply']; exact validDate_nextDay ih

/-- A valid date is strictly before its successor day. -/
theorem dateLt_nextDay {d : CivilDate} (h : ValidDate d) : dateLt d (nextDay d) = true := by
  obtain ⟨hy, hm1, hm2, hd1, hd2⟩ := h
  unfold nextDay dateLt
  split
  · simp
  · split
    · simp
    · simp

/-- `dateLt` is transitive. -/
theorem dateLt_trans {a b c : CivilDate} (h1 : dateLt a b = true) (h2 : dateLt b c = true) :
    dateLt a c = true := by
  simp only [dateLt, decide_eq_true_eq] at *
  omega

/-- A valid date is strictly before any positive number of days later. -/
theorem dateLt_iterate {d : CivilDate} (h : ValidDate d) {n : Nat} (hn : 0 < n) :
    dateLt d (nextDay^[n] d) = true := by
  induction n with
  | zero => omega
  | succ k ih =>
    rcases Nat.eq_zero_or_pos k with hk | hk
    · subst hk
      rw [Function.iterate_one]
      exact dateLt_nextDay h
    · rw [Function.iterate_succ_apply']
      exact dateLt_trans (ih hk) (dateLt_nextDay (validDate_iterate h k))

/-- Adding distinct day counts to a valid date gives distinct dates. -/
theorem addDays_ne {ref : CivilDate} (h : ValidDate ref) {i j : Nat} (hij : i ≠ j) :
    addDays ref i ≠ addDays ref j := by
  have key : ∀ {a b : Nat}, a < b → dateLt (addDays ref a) (addDays ref b) = true := by
    intro a b hab
    have hsplit : addDays ref b = nextDay^[b - a] (addDays ref a) := by
      rw [addDays, addDays, ← Function.iterate_add_apply]
      congr 1
      omega
    rw [hsplit]
    exact dateLt_iterate (validDate_iterate h a) (by omega)
  intro heq
  rcases Nat.lt_or_ge i j with hlt | hge
  · have := key hlt
    rw [heq, dateLt_irrefl] at this
    exact Bool.false_ne_true this
  · have hlt : j < i := by omega
    have := key hlt
    rw [heq, dateLt_irrefl] at this
    exact Bool.false_ne_true this

set_option maxRecDepth 4000 in
/-- C4.  Window disjointness: for a valid reference date the enumerated date
sets `next7Days` (offsets 1–7), `next28Days` (8–28) and `next365Days`
(29–365, before the pinned filter) are pairwise disjoint, their
concatenation is exactly the list of the 365 dates following the reference
date, and that concatenation has no duplicates — each of the 365 following
days is covered exactly once. -/
theorem overview_windows_partition (ref : CivilDate) (h : ValidDate ref) :
    (∀ d ∈ next7Days ref, d ∉ next28Days ref) ∧
    (∀ d ∈ next7Days ref, d ∉ next365Days ref) ∧
    (∀ d ∈ next28Days ref, d ∉ next365Days ref) ∧
    next7Days ref ++ next28Days ref ++ next365Days ref
      = (List.range' 1 365).map (addDays ref) ∧
    (next7Days ref ++ next28Days ref ++ next365Days ref).Nodup := by
  have disj : ∀ (s₁ n₁ s₂ n₂ : Nat), s₁ + n₁ ≤ s₂ →
      ∀ d ∈ (List.range' s₁ n₁).map (addDays ref),
        d ∉ (List.range' s₂ n₂).map (addDays ref) := by
    intro s₁ n₁ s₂ n₂ hle d hd hd2
    simp only [List.mem_map, List.mem_range'_1] at hd hd2
    obtain ⟨i, hi, rfl⟩ := hd
    obtain ⟨j, hj, hji⟩ := hd2
    exact addDays_ne h (by omega) hji
  have hr : List.range' 1 7 ++ List.range' 8 21 ++ List.range' 29 337
      = List.range' 1 365 := by decide
  refine ⟨disj 1 7 8 21 (by omega), disj 1 7 29 337 (by omega),
    disj 8 21 29 337 (by omega), ?_, ?_⟩
  · unfold next7Days next28Days next365Days
    rw [← List.map_append, ← List.map_append, hr]
  · unfold next7Days next28Days next365Days
    rw [← List.map_append, ← List.map_append, hr]
    refine List.Nodup.map_on ?_ (List.nodup_range' 1 365)
    intro i hi j hj hij
    by_contra hne
    exact addDays_ne h hne hij

/-- Witness for C4 at the concrete reference date 2024-01-15. -/
theorem overview_windows_partition_witness :
    ValidDate ⟨2024, 1, 15⟩ ∧
    ((∀ d ∈ next7Days ⟨2024, 1, 15⟩, d ∉ next28Days ⟨2024, 1, 15⟩) ∧
     (∀ d ∈ next7Days ⟨2024, 1, 15⟩, d ∉ next365Days ⟨2024, 1, 15⟩) ∧
     (∀ d ∈ next28Days ⟨2024, 1, 15⟩, d ∉ next365Days ⟨2024, 1, 15⟩) ∧
     next7Days ⟨2024, 1, 15⟩ ++ next28Days ⟨2024, 1, 15⟩ ++ next365Days ⟨2024, 1, 15⟩
       = (List.range' 1 365).map (addDays ⟨2024, 1, 15⟩) ∧
     (next7Days ⟨2024, 1, 15⟩ ++ next28Days ⟨2024, 1, 15⟩ ++ next365Days ⟨2024, 1, 15⟩).Nodup) :=
  ⟨by decide, overview_windows_partition ⟨2024, 1, 15⟩ (by decide)⟩

/-- December always has 31 days. -/
theorem daysInMonth_twelve (y : Nat) : daysInMonth y 12 = 31 := rfl

/-- `prevDay` undoes `nextDay` on valid dates. -/
theorem prevDay_nextDay {d : CivilDate} (h : ValidDate d) : prevDay (nextDay d) = d := by
  obtain ⟨y, m, dd⟩ := d
  obtain ⟨hy, hm1, hm2, hd1, hd2⟩ := h
  dsimp only at hy hm1 hm2 hd1 hd2
  unfold nextDay
  dsimp only
  split
  · unfold prevDay
    dsimp only
    rw [if_pos (by omega)]
    congr 1 <;> omega
  · split
    · rename_i hno hm
      unfold prevDay
      dsimp only
      rw [if_neg (by omega), if_pos (by omega)]
      simp only [Nat.add_sub_cancel]
      congr 1
      omega
    · rename_i hno hm
      unfold prevDay
      dsimp only
      have hm12 : m = 12 := by omega
      have hdim : dd = daysInMonth y m := by omega
      rw [hm12, daysInMonth_twelve] at hdim
      rw [if_neg (by omega), if_neg (by omega)]
      congr 1 <;> omega

/-- `nextDay` undoes `prevDay` on valid dates. -/
theorem nextDay_prevDay {d : CivilDate} (h : ValidDate d) : nextDay (prevDay d) = d := by
  obtain ⟨y, m, dd⟩ := d
  obtain ⟨hy, hm1, hm2, hd1, hd2⟩ := h
  dsimp only at hy hm1 hm2 hd1 hd2
  unfold prevDay
  dsimp only
  split
  · unfold nextDay
    dsimp only
    rw [if_pos (by omega)]
    congr 1 <;> omega
  · split
    · rename_i hno hm
      unfold nextDay
      dsimp only
      rw [if_neg (by omega), if_pos (by omega)]
      congr 1 <;> omega
    · rename_i hno hm
      unfold nextDay
      dsimp only
      have hm1' : m = 1 := by omega
      have hd1' : dd = 1 := by omega
      rw [if_neg (by rw [daysInMonth_twelve]; omega), if_neg (by omega)]
      congr 1 <;> omega

/-- Local parse at noon followed by local extraction recovers the date, for
any real-world UTC offset. -/
theorem localCivilDate_noon {d : CivilDate} (h : ValidDate d) {o : Int}
    (ho1 : -840 ≤ o) (ho2 : o ≤ 840) :
    localCivilDate (dateAtLocalNoon d o) o = d := by
  unfold dateAtLocalNoon localCivilDate
  by_cases h1 : (720 : Int) - o < 0
  · rw [if_pos h1]
    simp only []
    rw [if_neg (by omega), if_pos (by omega)]
    exact nextDay_prevDay h
  · rw [if_neg h1]
    by_cases h2 : (1440 : Int) ≤ 720 - o
    · rw [if_pos h2]
      simp only []
      rw [if_pos (by omega)]
      exact prevDay_nextDay h
    · rw [if_neg h2]
      simp only []
      rw [if_neg (by omega), if_neg (by omega)]

/-- `digitChar` always yields a decimal digit character. -/
theorem digitChar_isDigit (k : Nat) : (digitChar k).isDigit = true := by
  rcases k with _ | _ | _ | _ | _ | _ | _ | _ | _ | k <;> rfl

/-- One non-final step of the digit renderer. -/
theorem natDigitsAux_step (fuel n : Nat) (acc : List Char) (h : ¬ n < 10) :
    natDigitsAux (fuel + 1) n acc = natDigitsAux fuel (n / 10) (digitChar (n % 10) :: acc) := by
  have e : natDigitsAux (fuel + 1) n acc
      = if n < 10 then digitChar n :: acc
        else natDigitsAux fuel (n / 10) (digitChar (n % 10) :: acc) := rfl
  rw [e, if_neg h]

/-- Final step of the digit renderer. -/
theorem natDigitsAux_last (fuel n : Nat) (acc : List Char) (h : n < 10) :
    natDigitsAux (fuel + 1) n acc = digitChar n :: acc := by
  have e : natDigitsAux (fuel + 1) n acc
      = if n < 10 then digitChar n :: acc
        else natDigitsAux fuel (n / 10) (digitChar (n % 10) :: acc) := rfl
  rw [e, if_pos h]

/-- Accumulator form of the fuel-indexed digit renderer. -/
theorem natDigitsAux_append (fuel : Nat) :
    ∀ (n : Nat) (acc : List Char),
      natDigitsAux fuel n acc = natDigitsAux fuel n [] ++ acc := by
  induction fuel with
  | zero => intro n acc; rfl
  | succ f ih =>
    intro n acc
    by_cases h : n < 10
    · rw [natDigitsAux_last f n acc h, natDigitsAux_last f n [] h]
      rfl
    · rw [natDigitsAux_step f n acc h, natDigitsAux_step f n [] h,
        ih (n / 10) (digitChar (n % 10) :: acc), ih (n / 10) [digitChar (n % 10)]]
      simp

/-- Closed form of `natDigits` on four-digit numbers. -/
theorem natDigits_four {n : Nat} (h1 : 1000 ≤ n) (h2 : n ≤ 9999) :
    natDigits n = [digitChar (n / 1000), digitChar (n / 100 % 10),
      digitChar (n / 10 % 10), digitChar (n % 10)] := by
  unfold natDigits
  rw [natDigitsAux_step n n [] (by omega)]
  obtain ⟨f1, hf1⟩ : ∃ k, n = k + 1 := ⟨n - 1, by omega⟩
  rw [hf1]
  rw [natDigitsAux_step f1 ((f1 + 1) / 10) _ (by omega)]
  obtain ⟨f2, hf2⟩ : ∃ k, f1 = k + 1 := ⟨f1 - 1, by omega⟩
  rw [hf2]
  rw [natDigitsAux_step f2 ((f2 + 1 + 1) / 10 / 10) _ (by omega)]
  obtain ⟨f3, hf3⟩ : ∃ k, f2 = k + 1 := ⟨f2 - 1, by omega⟩
  rw [hf3]
  rw [natDigitsAux_last f3 _ _ (by omega)]
  rw [← hf3, ← hf2, ← hf1]
  have e1 : n / 10 / 10 = n / 100 := by omega
  rw [e1]
  have e2 : n / 100 / 10 = n / 1000 := by omega
  rw [e2]

/-- Closed form of `natDigits` on one-digit numbers. -/
theorem natDigits_one {n : Nat} (h : n < 10) : natDigits n = [digitChar n] := by
  unfold natDigits
  rw [natDigitsAux_last n n [] h]

/-- Closed form of `natDigits` on two-digit numbers. -/
theorem natDigits_two {n : Nat} (h1 : 10 ≤ n) (h2 : n ≤ 99) :
    natDigits n = [digitChar (n / 10), digitChar (n % 10)] := by
  unfold natDigits
  rw [natDigitsAux_step n n [] (by omega)]
  obtain ⟨f1, hf1⟩ : ∃ k, n = k + 1 := ⟨n - 1, by omega⟩
  rw [hf1]
  rw [natDigitsAux_last f1 _ _ (by omega)]

/-- Closed form of `pad2` for numbers up to 99. -/
theorem pad2_eq {n : Nat} (h : n ≤ 99) :
    pad2 n = if n < 10 then ['0', digitChar n]
      else [digitChar (n / 10), digitChar (n % 10)] := by
  by_cases h10 : n < 10
  · rw [if_pos h10]
    unfold pad2 padStart
    rw [natDigits_one h10]
    rfl
  · rw [if_neg h10]
    unfold pad2 padStart
    rw [natDigits_two (by omega) h]
    rfl

/-- `pad2` always renders two decimal digits for values up to 99. -/
theorem pad2_shape {n : Nat} (h : n ≤ 99) :
    (pad2 n).length = 2 ∧ ∀ c ∈ pad2 n, c.isDigit = true := by
  rw [pad2_eq h]
  by_cases h10 : n < 10
  · rw [if_pos h10]
    refine ⟨rfl, ?_⟩
    intro c hc
    simp only [List.mem_cons, List.not_mem_nil, or_false] at hc
    rcases hc with rfl | rfl
    · decide
    · exact digitChar_isDigit n
  · rw [if_neg h10]
    refine ⟨rfl, ?_⟩
    intro c hc
    simp only [List.mem_cons, List.not_mem_nil, or_false] at hc
    rcases hc with rfl | rfl
    · exact digitChar_isDigit (n / 10)
    · exact digitChar_isDigit (n % 10)

/-- C5.  The export date formatter is timezone-independent thanks to the
noon anchor: for every valid date and every real-world host offset it
yields the same eight-digit pure-date rendering `YYYYMMDD` of that date
(for four-digit years), and in particular the date `2024-01-15` is rendered
`20240115` under every offset. -/
theorem export_date_noon_anchored :
    (∀ (d : CivilDate) (o : Int), ValidDate d → -840 ≤ o → o ≤ 840 →
      exportFormatDate d o = natDigits d.year ++ pad2 d.month ++ pad2 d.day) ∧
    (∀ (d : CivilDate) (o : Int), ValidDate d → 1000 ≤ d.year → d.year ≤ 9999 →
      -840 ≤ o → o ≤ 840 →
      (exportFormatDate d o).length = 8 ∧ ∀ c ∈ exportFormatDate d o, c.isDigit = true) ∧
    (∀ o : Int, -840 ≤ o → o ≤ 840 →
      exportFormatDate ⟨2024, 1, 15⟩ o = "20240115".data) := by
  have base : ∀ (d : CivilDate) (o : Int), ValidDate d → -840 ≤ o → o ≤ 840 →
      exportFormatDate d o = natDigits d.year ++ pad2 d.month ++ pad2 d.day := by
    intro d o h ho1 ho2
    unfold exportFormatDate
    rw [localCivilDate_noon h ho1 ho2]
  refine ⟨base, ?_, ?_⟩
  · intro d o h hy1 hy2 ho1 ho2
    rw [base d o h ho1 ho2]
    obtain ⟨_, _, hm2, _, hd2⟩ := h
    have hdm : d.day ≤ 99 := by
      have : daysInMonth d.year d.month ≤ 31 := by
        unfold daysInMonth
        split
        · split <;> omega
        · split <;> omega
      omega
    have hm99 : d.month ≤ 99 := by omega
    obtain ⟨hml, hmd⟩ := pad2_shape hm99
    obtain ⟨hdl, hdd⟩ := pad2_shape hdm
    constructor
    · rw [natDigits_four hy1 hy2]
      simp [hml, hdl]
    · intro c hc
      rw [natDigits_four hy1 hy2] at hc
      simp only [List.mem_append, List.mem_cons, List.not_mem_nil, or_false] at hc
      rcases hc with ((rfl | rfl | rfl | rfl) | hc) | hc
      · exact digitChar_isDigit _
      · exact digitChar_isDigit _
      · exact digitChar_isDigit _
      · exact digitChar_isDigit _
      · exact hmd c hc
      · exact hdd c hc
  · intro o ho1 ho2
    rw [base ⟨2024, 1, 15⟩ o (by decide) ho1 ho2]
    rfl

/-- `splitLines` on a plain character just extends the current line. -/
theorem splitLines_cons_plain (c : Char) (xs : List Char) (h1 : c ≠ '\r') (h2 : c ≠ '\n') :
    splitLines (c :: xs) =
      match splitLines xs with
      | [] => [[c]]
      | l :: ls => (c :: l) :: ls := by
  conv_lhs => unfold splitLines
  split
  · simp_all
  · simp_all
  · simp_all
  · rename_i heq
    rw [List.cons.injEq] at heq
    obtain ⟨hc, hx⟩ := heq
    subst hc
    subst hx
    rfl

/-- Splitting a terminator-free string yields that single line. -/
theorem splitLines_clean (l : List Char) (h : ∀ c ∈ l, plainChar c) :
    splitLines l = [l] := by
  induction l with
  | nil => rfl
  | cons c cs ih =>
    obtain ⟨h2, h1⟩ := h c (List.mem_cons_self _ _)
    rw [splitLines_cons_plain c cs h1 h2,
      ih fun x hx => h x (List.mem_cons_of_mem _ hx)]

/-- Splitting peels one CRLF-terminated terminator-free line. -/
theorem splitLines_append_crlf (l rest : List Char) (h : ∀ c ∈ l, plainChar c) :
    splitLines (l ++ '\r' :: '\n' :: rest) = l :: splitLines rest := by
  induction l with
  | nil => rfl
  | cons c cs ih =>
    obtain ⟨h2, h1⟩ := h c (List.mem_cons_self _ _)
    rw [List.cons_append, splitLines_cons_plain c _ h1 h2,
      ih fun x hx => h x (List.mem_cons_of_mem _ hx)]

/-- `split(/\r?\n/)` recovers the lines of a CRLF-joined document whose
lines are terminator-free. -/
theorem splitLines_joinCRLF :
    ∀ lines : List (List Char), lines ≠ [] →
      (∀ l ∈ lines, ∀ c ∈ l, plainChar c) →
      splitLines (joinCRLF lines) = lines := by
  intro lines
  induction lines with
  | nil => intro h; exact absurd rfl h
  | cons l ls ih =>
    intro _ h
    rcases ls with _ | ⟨l2, ls2⟩
    · exact splitLines_clean l (h l (List.mem_cons_self _ _))
    · have e : joinCRLF (l :: l2 :: ls2) = l ++ '\r' :: '\n' :: joinCRLF (l2 :: ls2) := by
        simp only [joinCRLF]
        simp [List.append_assoc]
      rw [e, splitLines_append_crlf l _ (h l (List.mem_cons_self _ _)),
        ih (by simp) fun x hx c hc => h x (List.mem_cons_of_mem _ hx) c hc]

/-- `ltrim` fixes a string whose first character is not whitespace. -/
theorem ltrim_cons (c : Char) (l : List Char) (h : isSpaceJS c = false) :
    ltrim (c :: l) = c :: l := by
  unfold ltrim
  rw [List.dropWhile_cons, if_neg (by simp [h])]

/-- `rtrim` fixes the extension of an `rtrim`-fixed suffix by an
`rtrim`-fixed part. -/
theorem rtrim_append (P s : List Char) (hP : rtrim P = P) (hs : rtrim s = s) :
    rtrim (P ++ s) = P ++ s := by
  rcases hrev : s.reverse with _ | ⟨c, t⟩
  · have hnil : s = [] := by
      have := congrArg List.reverse hrev
      simpa using this
    subst hnil
    simpa using hP
  · have hseq : s = (c :: t).reverse := by
      rw [← hrev, List.reverse_reverse]
    have hsc : ¬ isSpaceJS c = true := by
      intro hws
      have hdo : rtrim s = (t.dropWhile isSpaceJS).reverse := by
        unfold rtrim
        rw [hrev, List.dropWhile_cons, if_pos hws]
      rw [hs] at hdo
      have hlen := congrArg List.length hdo
      have h1 : ∀ u : List Char, (u.dropWhile isSpaceJS).length ≤ u.length := by
        intro u
        induction u with
        | nil => simp
        | cons a l ih =>
          rw [List.dropWhile_cons]
          split
          · exact le_trans ih (by simp)
          · simp
      have h1t := h1 t
      have h2 : s.length = t.length + 1 := by
        have := congrArg List.length hrev
        simpa using this
      simp only [List.length_reverse] at hlen
      omega
    unfold rtrim
    rw [List.reverse_append, hrev, List.cons_append, List.dropWhile_cons, if_neg hsc]
    rw [hseq]
    simp [List.append_assoc]

/-- Key extraction: on a line `k ++ ":" ++ v` whose key part `k` is
colon-free, `takeWhile (≠ ':')` returns exactly `k`. -/
theorem takeWhile_colon_append (k v : List Char) (hk : ':' ∉ k) :
    (k ++ ':' :: v).takeWhile (fun c => c ≠ ':') = k := by
  induction k with
  | nil => simp
  | cons c rest ih =>
    have hc : (c : Char) ≠ ':' := by
      intro hc
      exact hk (by rw [hc]; exact List.mem_cons_self _ _)
    have hrest : ':' ∉ rest := fun hmem => hk (List.mem_cons_of_mem _ hmem)
    rw [List.cons_append, List.takeWhile_cons, if_pos (by simp [hc]), ih hrest]

/-- Value extraction: on the same shape of line, `dropWhile (≠ ':')`
reaches the first colon. -/
theorem dropWhile_colon_append (k v : List Char) (hk : ':' ∉ k) :
    (k ++ ':' :: v).dropWhile (fun c => c ≠ ':') = ':' :: v := by
  induction k with
  | nil => simp
  | cons c rest ih =>
    have hc : (c : Char) ≠ ':' := by
      intro hc
      exact hk (by rw [hc]; exact List.mem_cons_self _ _)
    have hrest : ':' ∉ rest := fun hmem => hk (List.mem_cons_of_mem _ hmem)
    rw [List.cons_append, List.dropWhile_cons, if_pos (by simp [hc]), ih hrest]

/-- A line made of a concrete non-whitespace-initial prefix and an
`rtrim`-fixed suffix is `trim`-fixed. -/
theorem trim_concat (p0 : Char) (P s : List Char) (hp0 : isSpaceJS p0 = false)
    (hP : rtrim (p0 :: P) = p0 :: P) (hs : rtrim s = s) :
    trim ((p0 :: P) ++ s) = (p0 :: P) ++ s := by
  unfold trim
  rw [rtrim_append _ _ hP hs, List.cons_append, ltrim_cons _ _ hp0]

/-- `trim` of a concrete fully-trimmed line. -/
theorem trim_self (s : List Char) (h : ltrim (rtrim s) = s) : trim s = s := h

/-- Loop step: a `BEGIN:VEVENT` line opens a fresh accumulator. -/
theorem loop_cons_begin (line : List Char) (rest : List (List Char))
    (st : Option ParsedTodo) (h : trim line = "BEGIN:VEVENT".data) :
    parseLinesLoop (line :: rest) st = parseLinesLoop rest (some {}) := by
  conv_lhs => unfold parseLinesLoop
  rw [if_pos h]

/-- Loop step: outside an event, any other line is skipped. -/
theorem loop_cons_none (line : List Char) (rest : List (List Char))
    (h : trim line ≠ "BEGIN:VEVENT".data) :
    parseLinesLoop (line :: rest) none = parseLinesLoop rest none := by
  conv_lhs => unfold parseLinesLoop
  rw [if_neg h]

/-- Loop step: inside an event, a non-marker colon-containing line is
field-extracted. -/
theorem loop_cons_field (line : List Char) (rest : List (List Char)) (ev : ParsedTodo)
    (hb : trim line ≠ "BEGIN:VEVENT".data) (he : trim line ≠ "END:VEVENT".data)
    (hc : (trim line).contains ':' = true) :
    parseLinesLoop (line :: rest) (some ev)
      = parseLinesLoop rest (some (processLine ev (trim line))) := by
  conv_lhs => unfold parseLinesLoop
  rw [if_neg hb]
  simp only []
  rw [if_neg he, if_pos hc]

/-- Loop step: `END:VEVENT` commits a truthy accumulator. -/
theorem loop_cons_end_commit (line : List Char) (rest : List (List Char)) (ev : ParsedTodo)
    (h : trim line = "END:VEVENT".data)
    (ht : truthyStr ev.text = true) (hd : truthyStr ev.date = true) :
    parseLinesLoop (line :: rest) (some ev) = ev :: parseLinesLoop rest none := by
  conv_lhs => unfold parseLinesLoop
  rw [if_neg (by rw [h]; decide)]
  simp only []
  rw [if_pos h, if_pos (by rw [ht, hd]; rfl)]

/-- Loop step: `END:VEVENT` silently discards a non-truthy accumulator. -/
theorem loop_cons_end_discard (line : List Char) (rest : List (List Char)) (ev : ParsedTodo)
    (h : trim line = "END:VEVENT".data)
    (htd : (truthyStr ev.text && truthyStr ev.date) = false) :
    parseLinesLoop (line :: rest) (some ev) = parseLinesLoop rest none := by
  conv_lhs => unfold parseLinesLoop
  rw [if_neg (by rw [h]; decide)]
  simp only []
  rw [if_pos h, if_neg (by rw [htd]; simp)]

/-- The loop emits at most one event per input line. -/
theorem parseLinesLoop_length_le :
    ∀ (lines : List (List Char)) (st : Option ParsedTodo),
      (parseLinesLoop lines st).length ≤ lines.length := by
  intro lines
  induction lines with
  | nil => intro st; simp [parseLinesLoop]
  | cons l rest ih =>
    intro st
    unfold parseLinesLoop
    simp only []
    split
    · exact le_trans (ih _) (by simp)
    · split
      · split
        · split
          · simpa using ih none
          · exact le_trans (ih _) (by simp)
        · split
          · exact le_trans (ih _) (by simp)
          · exact le_trans (ih _) (by simp)
      · exact le_trans (ih _) (by simp)

/-- Heads differ, so the lists differ. -/
theorem cons_ne_cons (c c' : Char) (l l' : List Char) (h : c ≠ c') : c :: l ≠ c' :: l' := by
  intro heq
  rw [List.cons.injEq] at heq
  exact h heq.1

/-- A list with a member `c` contains `c`. -/
theorem contains_of_mem (c : Char) (l : List Char) (h : c ∈ l) : l.contains c = true := by
  induction l with
  | nil => cases h
  | cons a t ih =>
    rw [List.contains_cons]
    rcases List.mem_cons.mp h with rfl | hm
    · simp
    · rw [ih hm]
      simp

/-- A nonempty optional string is truthy. -/
theorem truthyStr_some (s : List Char) (h : s ≠ []) : truthyStr (some s) = true := by
  rcases s with _ | ⟨c, t⟩
  · exact absurd rfl h
  · rfl

/-- A list with a `'-'` separator in the middle is nonempty. -/
theorem append_dash_ne_nil (A B : List Char) : A ++ '-' :: B ≠ [] := by
  rcases A with _ | ⟨c, t⟩ <;> simp

/-- `processLine` on a `SUMMARY` line stores the raw value. -/
theorem processLine_summary (ev : ParsedTodo) (v : List Char) :
    processLine ev ("SUMMARY:".data ++ v) = { ev with text := some v } := by
  have e : ("SUMMARY:".data ++ v) = "SUMMARY".data ++ ':' :: v := rfl
  unfold processLine
  rw [e, takeWhile_colon_append _ _ (by decide), dropWhile_colon_append _ _ (by decide)]
  rw [if_pos (by decide)]
  rfl

/-- `processLine` ignores a `UID` line. -/
theorem processLine_uid (ev : ParsedTodo) (v : List Char) :
    processLine ev ("UID:".data ++ v) = ev := by
  have e : ("UID:".data ++ v) = "UID".data ++ ':' :: v := rfl
  unfold processLine
  rw [e, takeWhile_colon_append _ _ (by decide), dropWhile_colon_append _ _ (by decide)]
  rw [if_neg (by decide), if_neg (by decide), if_neg (by decide), if_neg (by decide),
    if_neg (by decide)]

/-- `processLine` ignores a `DTSTAMP` line (its key does not extend
`DTSTART`: they differ at the sixth character). -/
theorem processLine_dtstamp (ev : ParsedTodo) (v : List Char) :
    processLine ev ("DTSTAMP:".data ++ v) = ev := by
  have e : ("DTSTAMP:".data ++ v) = "DTSTAMP".data ++ ':' :: v := rfl
  unfold processLine
  rw [e, takeWhile_colon_append _ _ (by decide), dropWhile_colon_append _ _ (by decide)]
  rw [if_neg (by decide), if_neg (by decide), if_neg (by decide), if_neg (by decide),
    if_neg (by decide)]

/-- `processLine` on the parameterized `DTSTART;VALUE=DATE` line with an
8-digit value records the hyphenated date. -/
theorem processLine_dtstart (ev : ParsedTodo) (v : List Char)
    (hT : stripTimePart v = v) (h8 : isEightDigits v = true) :
    processLine ev ("DTSTART;VALUE=DATE:".data ++ v)
      = { ev with date := some (v.take 4 ++ '-' :: (v.drop 4).take 2
          ++ '-' :: (v.drop 6).take 2) } := by
  have e : ("DTSTART;VALUE=DATE:".data ++ v) = "DTSTART;VALUE=DATE".data ++ ':' :: v := rfl
  unfold processLine
  rw [e, takeWhile_colon_append _ _ (by decide), dropWhile_colon_append _ _ (by decide)]
  rw [if_neg (by decide), if_pos (by decide)]
  simp only [List.drop_succ_cons, List.drop_zero]
  rw [hT, if_pos h8]

/-- `processLine` on a `CATEGORIES` line overwrites the category. -/
theorem processLine_categories (ev : ParsedTodo) (v : List Char) :
    processLine ev ("CATEGORIES:".data ++ v) = { ev with category := v } := by
  have e : ("CATEGORIES:".data ++ v) = "CATEGORIES".data ++ ':' :: v := rfl
  unfold processLine
  rw [e, takeWhile_colon_append _ _ (by decide), dropWhile_colon_append _ _ (by decide)]
  rw [if_neg (by decide), if_neg (by decide), if_neg (by decide), if_neg (by decide),
    if_pos (by decide)]
  rfl

/-- `processLine` on a `STATUS` line overwrites `completed`. -/
theorem processLine_status (ev : ParsedTodo) (v : List Char) :
    processLine ev ("STATUS:".data ++ v)
      = { ev with completed := decide (v = "COMPLETED".data) } := by
  have e : ("STATUS:".data ++ v) = "STATUS".data ++ ':' :: v := rfl
  unfold processLine
  rw [e, takeWhile_colon_append _ _ (by decide), dropWhile_colon_append _ _ (by decide)]
  rw [if_neg (by decide), if_neg (by decide), if_neg (by decide), if_pos (by decide)]
  rfl

/-- `processLine` on a `DESCRIPTION` line: the three regex extractions, in
source order, each overwriting its field only on a match. -/
theorem processLine_description (ev : ParsedTodo) (v : List Char) :
    processLine ev ("DESCRIPTION:".data ++ v)
      = (let description := unescapeNewlines v
         let ev1 :=
           match findCategory description with
           | some cap => { ev with category := trim cap }
           | none => ev
         let ev2 :=
           match findTags description with
           | some cap =>
             { ev1 with tags := (((splitOnChar ',' cap).map trim).filter
                 fun tag => !tag.isEmpty) }
           | none => ev1
         match findCompleted description with
         | some cap => { ev2 with completed := decide (cap = "Yes".data) }
         | none => ev2) := by
  have e : ("DESCRIPTION:".data ++ v) = "DESCRIPTION".data ++ ':' :: v := rfl
  unfold processLine
  rw [e, takeWhile_colon_append _ _ (by decide), dropWhile_colon_append _ _ (by decide)]
  rw [if_neg (by decide), if_neg (by decide), if_pos (by decide)]
  rfl

/-- C9.  Inside an event block, `completed` is last-writer-wins per physical
line: a `STATUS` line sets it to `value == "COMPLETED"` whatever the
accumulator held before, a `DESCRIPTION` line whose unescaped text yields a
`Completed:` capture sets it to `capture == "Yes"` whatever the accumulator
held before, and consequently in a block containing both lines the later
one determines the final value, in either order. -/
theorem completed_last_line_wins :
    (∀ (ev : ParsedTodo) (v : List Char),
      (processLine ev ("STATUS:".data ++ v)).completed = decide (v = "COMPLETED".data)) ∧
    (∀ (ev : ParsedTodo) (v cap : List Char),
      findCompleted (unescapeNewlines v) = some cap →
      (processLine ev ("DESCRIPTION:".data ++ v)).completed = decide (cap = "Yes".data)) ∧
    (∀ (ev : ParsedTodo) (v w : List Char),
      (processLine (processLine ev ("DESCRIPTION:".data ++ w)) ("STATUS:".data ++ v)).completed
        = decide (v = "COMPLETED".data)) ∧
    (∀ (ev : ParsedTodo) (v w cap : List Char),
      findCompleted (unescapeNewlines w) = some cap →
      (processLine (processLine ev ("STATUS:".data ++ v)) ("DESCRIPTION:".data ++ w)).completed
        = decide (cap = "Yes".data)) := by
  have hstatus : ∀ (ev : ParsedTodo) (v : List Char),
      (processLine ev ("STATUS:".data ++ v)).completed = decide (v = "COMPLETED".data) := by
    intro ev v
    have e : ("STATUS:".data ++ v) = "STATUS".data ++ ':' :: v := rfl
    unfold processLine
    rw [e, takeWhile_colon_append _ _ (by decide), dropWhile_colon_append _ _ (by decide)]
    rw [if_neg (by decide), if_neg (by decide), if_neg (by decide), if_pos (by decide)]
    rfl
  have hdesc : ∀ (ev : ParsedTodo) (v cap : List Char),
      findCompleted (unescapeNewlines v) = some cap →
      (processLine ev ("DESCRIPTION:".data ++ v)).completed = decide (cap = "Yes".data) := by
    intro ev v cap hcap
    have e : ("DESCRIPTION:".data ++ v) = "DESCRIPTION".data ++ ':' :: v := rfl
    unfold processLine
    rw [e, takeWhile_colon_append _ _ (by decide), dropWhile_colon_append _ _ (by decide)]
    rw [if_neg (by decide), if_neg (by decide), if_pos (by decide)]
    simp only [List.drop_succ_cons, List.drop_zero]
    rw [hcap]
  refine ⟨hstatus, hdesc, ?_, ?_⟩
  · intro ev v w
    exact hstatus _ v
  · intro ev v w cap hcap
    exact hdesc _ w cap hcap

/-- Witness for C9: a block state seeing `DESCRIPTION` with `Completed: No`
and then `STATUS:COMPLETED` ends completed; the reverse order ends
not-completed. -/
theorem completed_last_line_wins_witness :
    (processLine ({} : ParsedTodo) ("STATUS:".data ++ "COMPLETED".data)).completed
      = decide (("COMPLETED".data : List Char) = "COMPLETED".data) ∧
    findCompleted (unescapeNewlines "Completed: No".data) = some "No".data ∧
    (processLine (processLine ({} : ParsedTodo)
        ("STATUS:".data ++ "COMPLETED".data))
        ("DESCRIPTION:".data ++ "Completed: No".data)).completed
      = decide (("No".data : List Char) = "Yes".data) :=
  ⟨completed_last_line_wins.1 {} "COMPLETED".data,
   by decide,
   completed_last_line_wins.2.2.2 {} "COMPLETED".data "Completed: No".data "No".data (by decide)⟩

/-- Digits are not JS whitespace. -/
theorem not_space_of_digit (c : Char) (h : c.isDigit = true) : isSpaceJS c = false := by
  unfold isSpaceJS
  rw [decide_eq_false_iff_not]
  intro hor
  rcases hor with h' | h' | h' | h' | h' | h' <;> subst h' <;> exact absurd h (by decide)

/-- Digits are line-terminator free. -/
theorem plainChar_of_digit (c : Char) (h : c.isDigit = true) : plainChar c := by
  constructor
  · intro h'
    subst h'
    exact absurd h (by decide)
  · intro h'
    subst h'
    exact absurd h (by decide)

/-- `rtrim` fixes a string with no whitespace at all. -/
theorem rtrim_no_space (s : List Char) (h : ∀ c ∈ s, isSpaceJS c = false) :
    rtrim s = s := by
  unfold rtrim
  rcases hrev : s.reverse with _ | ⟨c, t⟩
  · have : s = [] := by
      have := congrArg List.reverse hrev
      simpa using this
    subst this
    rfl
  · have hc : c ∈ s := by
      have : c ∈ s.reverse := by rw [hrev]; exact List.mem_cons_self _ _
      exact List.mem_reverse.mp this
    rw [List.dropWhile_cons, if_neg (by rw [h c hc]; simp)]
    rw [← hrev, List.reverse_reverse]

/-- `stripTimePart` fixes a `T`-free string. -/
theorem stripTimePart_no_T (s : List Char) (h : ∀ c ∈ s, c ≠ 'T') :
    stripTimePart s = s := by
  induction s with
  | nil => rfl
  | cons c rest ih =>
    unfold stripTimePart
    rw [if_neg (h c (List.mem_cons_self _ _))]
    rw [ih fun x hx => h x (List.mem_cons_of_mem _ hx)]

/-- `stripTimePart` fixes an all-digit string. -/
theorem stripTimePart_of_digits (s : List Char) (h : ∀ c ∈ s, c.isDigit = true) :
    stripTimePart s = s := by
  refine stripTimePart_no_T s fun c hc h' => ?_
  subst h'
  exact absurd (h _ hc) (by decide)

/-- An 8-character all-digit string passes the `^\d{8}$` test. -/
theorem isEightDigits_of (s : List Char) (hl : s.length = 8)
    (hd : ∀ c ∈ s, c.isDigit = true) : isEightDigits s = true := by
  unfold isEightDigits
  rw [Bool.and_eq_true]
  constructor
  · simp [hl]
  · rw [List.all_eq_true]
    intro c hc
    exact hd c hc

/-- Decoding one well-formed spec block commits exactly when its date-start
line is present. -/
theorem loop_specBlock (b : EventBlockSpec) (rest : List (List Char))
    (h1 : b.summary ≠ []) (h2 : rtrim b.summary = b.summary)
    (h3 : ∀ ds, b.dtstart = some ds → ds.length = 8 ∧ ∀ c ∈ ds, c.isDigit = true) :
    parseLinesLoop (specBlockLines b ++ rest) none
      = (if b.dtstart.isSome then [specBlockEvent b] else [])
        ++ parseLinesLoop rest none := by
  have htrimS : trim ("SUMMARY:".data ++ b.summary) = "SUMMARY:".data ++ b.summary := by
    have e : "SUMMARY:".data ++ b.summary = ('S' :: "UMMARY:".data) ++ b.summary := rfl
    rw [e, trim_concat 'S' _ _ (by decide) (by decide) h2]
  have hneB : ("SUMMARY:".data ++ b.summary) ≠ "BEGIN:VEVENT".data := by
    rw [show ("SUMMARY:".data ++ b.summary) = 'S' :: ("UMMARY:".data ++ b.summary) from rfl,
      show ("BEGIN:VEVENT".data : List Char) = 'B' :: "EGIN:VEVENT".data from rfl]
    exact cons_ne_cons _ _ _ _ (by decide)
  have hneE : ("SUMMARY:".data ++ b.summary) ≠ "END:VEVENT".data := by
    rw [show ("SUMMARY:".data ++ b.summary) = 'S' :: ("UMMARY:".data ++ b.summary) from rfl,
      show ("END:VEVENT".data : List Char) = 'E' :: "ND:VEVENT".data from rfl]
    exact cons_ne_cons _ _ _ _ (by decide)
  have hcS : ("SUMMARY:".data ++ b.summary).contains ':' = true :=
    contains_of_mem _ _ (List.mem_append.mpr (Or.inl (by decide)))
  rcases hds : b.dtstart with _ | ds
  · have el : specBlockLines b ++ rest
        = "BEGIN:VEVENT".data :: ("SUMMARY:".data ++ b.summary)
          :: "END:VEVENT".data :: rest := by
      unfold specBlockLines
      rw [hds]
      rfl
    rw [el, loop_cons_begin _ _ _ (by decide),
      loop_cons_field _ _ _ (by rw [htrimS]; exact hneB) (by rw [htrimS]; exact hneE)
        (by rw [htrimS]; exact hcS)]
    rw [htrimS, processLine_summary]
    rw [loop_cons_end_discard _ _ _ (by decide) (by simp [truthyStr])]
    simp
  · obtain ⟨hlen, hdig⟩ := h3 ds hds
    have hrtD : rtrim ds = ds :=
      rtrim_no_space ds fun c hc => not_space_of_digit c (hdig c hc)
    have htrimD : trim ("DTSTART;VALUE=DATE:".data ++ ds)
        = "DTSTART;VALUE=DATE:".data ++ ds := by
      have e : "DTSTART;VALUE=DATE:".data ++ ds
          = ('D' :: "TSTART;VALUE=DATE:".data) ++ ds := rfl
      rw [e, trim_concat 'D' _ _ (by decide) (by decide) hrtD]
    have hneBD : ("DTSTART;VALUE=DATE:".data ++ ds) ≠ "BEGIN:VEVENT".data := by
      rw [show ("DTSTART;VALUE=DATE:".data ++ ds)
          = 'D' :: ("TSTART;VALUE=DATE:".data ++ ds) from rfl,
        show ("BEGIN:VEVENT".data : List Char) = 'B' :: "EGIN:VEVENT".data from rfl]
      exact cons_ne_cons _ _ _ _ (by decide)
    have hneED : ("DTSTART;VALUE=DATE:".data ++ ds) ≠ "END:VEVENT".data := by
      rw [show ("DTSTART;VALUE=DATE:".data ++ ds)
          = 'D' :: ("TSTART;VALUE=DATE:".data ++ ds) from rfl,
        show ("END:VEVENT".data : List Char) = 'E' :: "ND:VEVENT".data from rfl]
      exact cons_ne_cons _ _ _ _ (by decide)
    have hcD : ("DTSTART;VALUE=DATE:".data ++ ds).contains ':' = true :=
      contains_of_mem _ _ (List.mem_append.mpr (Or.inl (by decide)))
    have el : specBlockLines b ++ rest
        = "BEGIN:VEVENT".data :: ("SUMMARY:".data ++ b.summary)
          :: ("DTSTART;VALUE=DATE:".data ++ ds) :: "END:VEVENT".data :: rest := by
      unfold specBlockLines
      rw [hds]
      rfl
    rw [el, loop_cons_begin _ _ _ (by decide),
      loop_cons_field _ _ _ (by rw [htrimS]; exact hneB) (by rw [htrimS]; exact hneE)
        (by rw [htrimS]; exact hcS)]
    rw [htrimS, processLine_summary]
    rw [loop_cons_field _ _ _ (by rw [htrimD]; exact hneBD) (by rw [htrimD]; exact hneED)
      (by rw [htrimD]; exact hcD)]
    rw [htrimD, processLine_dtstart _ _ (stripTimePart_of_digits ds hdig)
      (isEightDigits_of ds hlen hdig)]
    rw [loop_cons_end_commit _ _ _ (by decide) (truthyStr_some _ h1)
      (truthyStr_some _ (append_dash_ne_nil _ _))]
    simp [specBlockEvent, hds]

/-- Decoding a run of well-formed spec blocks (plus footer) commits exactly
the blocks carrying a date-start line. -/
theorem loop_specBlocks (blocks : List EventBlockSpec)
    (hwf : ∀ b ∈ blocks, b.summary ≠ [] ∧ rtrim b.summary = b.summary ∧
      ∀ ds, b.dtstart = some ds → ds.length = 8 ∧ ∀ c ∈ ds, c.isDigit = true) :
    parseLinesLoop ((blocks.map specBlockLines).join ++ ["END:VCALENDAR".data]) none
      = (blocks.filter fun b => b.dtstart.isSome).map specBlockEvent := by
  induction blocks with
  | nil =>
    rw [show ((([] : List EventBlockSpec).map specBlockLines).join
        ++ ["END:VCALENDAR".data]) = ["END:VCALENDAR".data] from rfl]
    rw [loop_cons_none _ _ (by decide)]
    rfl
  | cons b bs ih =>
    obtain ⟨hb1, hb2, hb3⟩ := hwf b (List.mem_cons_self _ _)
    have e : ((b :: bs).map specBlockLines).join ++ ["END:VCALENDAR".data]
        = specBlockLines b ++ ((bs.map specBlockLines).join ++ ["END:VCALENDAR".data]) := by
      simp [List.append_assoc]
    rw [e, loop_specBlock b _ hb1 hb2 hb3,
      ih fun x hx => hwf x (List.mem_cons_of_mem _ hx)]
    rcases hds : b.dtstart with _ | ds <;>
      simp [List.filter_cons, hds]

/-- Header lines are skipped while outside an event. -/
theorem loop_header (rest : List (List Char)) :
    parseLinesLoop (icsHeaderLines ++ rest) none = parseLinesLoop rest none := by
  have e : icsHeaderLines ++ rest
      = "BEGIN:VCALENDAR".data :: "VERSION:2.0".data :: "PRODID:-//DWMYO//DWMYO//EN".data
        :: "CALSCALE:GREGORIAN".data :: "METHOD:PUBLISH".data :: rest := rfl
  rw [e, loop_cons_none _ _ (by decide), loop_cons_none _ _ (by decide),
    loop_cons_none _ _ (by decide), loop_cons_none _ _ (by decide),
    loop_cons_none _ _ (by decide)]

/-- Splitting the rendered spec document recovers its lines. -/
theorem splitLines_specDocument (blocks : List EventBlockSpec)
    (hwf : ∀ b ∈ blocks, (∀ c ∈ b.summary, plainChar c) ∧
      ∀ ds, b.dtstart = some ds → ∀ c ∈ ds, c.isDigit = true) :
    splitLines (specDocument blocks)
      = icsHeaderLines ++ (blocks.map specBlockLines).join ++ ["END:VCALENDAR".data] := by
  unfold specDocument
  refine splitLines_joinCRLF _ (by simp [icsHeaderLines]) ?_
  intro l hl
  rcases List.mem_append.mp hl with hl1 | hl2
  · rcases List.mem_append.mp hl1 with hh | hb
    · fin_cases hh <;> intro c hc <;> fin_cases hc <;> constructor <;> decide
    · rw [List.mem_join] at hb
      obtain ⟨ls, hls, hlmem⟩ := hb
      rw [List.mem_map] at hls
      obtain ⟨b, hbmem, rfl⟩ := hls
      obtain ⟨hsum, hdsd⟩ := hwf b hbmem
      unfold specBlockLines at hlmem
      rcases List.mem_cons.mp hlmem with rfl | hlmem
      · intro c hc
        fin_cases hc <;> constructor <;> decide
      rcases List.mem_cons.mp hlmem with rfl | hlmem
      · intro c hc
        rcases List.mem_append.mp hc with hc1 | hc2
        · fin_cases hc1 <;> constructor <;> decide
        · exact hsum c hc2
      · rcases hds : b.dtstart with _ | ds
        · rw [hds] at hlmem
          simp only [List.mem_singleton] at hlmem
          subst hlmem
          intro c hc
          fin_cases hc <;> constructor <;> decide
        · rw [hds] at hlmem
          rcases List.mem_cons.mp hlmem with rfl | hlmem
          · intro c hc
            rcases List.mem_append.mp hc with hc1 | hc2
            · fin_cases hc1 <;> constructor <;> decide
            · exact plainChar_of_digit c (hdsd ds hds c hc2)
          · simp only [List.mem_singleton] at hlmem
            subst hlmem
            intro c hc
            fin_cases hc <;> constructor <;> decide
  · simp only [List.mem_singleton] at hl2
    subst hl2
    intro c hc
    fin_cases hc <;> constructor <;> decide

/-- Each block either has or lacks a date-start line. -/
theorem filter_isSome_isNone_length (blocks : List EventBlockSpec) :
    (blocks.filter fun b => b.dtstart.isSome).length
      + (blocks.filter fun b => b.dtstart.isNone).length = blocks.length := by
  induction blocks with
  | nil => rfl
  | cons b bs ih =>
    rcases hd : b.dtstart with _ | ds <;>
      simp [List.filter_cons, hd] <;> omega

/-- C7.  Malformed-event tolerance: decoding is total (the result is a list
never longer than the line count, for every input), a document of
well-formed blocks decodes to exactly the blocks that have a date-start
line, and when exactly one block lacks its date-start line the decoder
yields one fewer task than there are blocks, dropping it silently. -/
theorem parseICS_malformed_event_tolerance (blocks : List EventBlockSpec)
    (hwf : ∀ b ∈ blocks, b.summary ≠ [] ∧ (∀ c ∈ b.summary, plainChar c) ∧
      rtrim b.summary = b.summary ∧
      ∀ ds, b.dtstart = some ds → ds.length = 8 ∧ ∀ c ∈ ds, c.isDigit = true) :
    parseICS (specDocument blocks)
      = (blocks.filter fun b => b.dtstart.isSome).map specBlockEvent ∧
    (parseICS (specDocument blocks)).length
      + (blocks.filter fun b => b.dtstart.isNone).length = blocks.length ∧
    ((blocks.filter fun b => b.dtstart.isNone).length = 1 →
      (parseICS (specDocument blocks)).length = blocks.length - 1) ∧
    (∀ s : List Char, (parseICS s).length ≤ (splitLines s).length) := by
  have hmain : parseICS (specDocument blocks)
      = (blocks.filter fun b => b.dtstart.isSome).map specBlockEvent := by
    unfold parseICS
    rw [splitLines_specDocument blocks
      (fun b hb => ⟨(hwf b hb).2.1, fun ds hds c hc => ((hwf b hb).2.2.2 ds hds).2 c hc⟩)]
    rw [List.append_assoc, loop_header]
    exact loop_specBlocks blocks
      (fun b hb => ⟨(hwf b hb).1, (hwf b hb).2.2.1, (hwf b hb).2.2.2⟩)
  have hcount := filter_isSome_isNone_length blocks
  refine ⟨hmain, ?_, ?_, ?_⟩
  · rw [hmain, List.length_map]
    exact hcount
  · intro hone
    rw [hmain, List.length_map]
    omega
  · intro s
    unfold parseICS
    exact parseLinesLoop_length_le _ none

/-- Witness for C7: three well-formed blocks, the middle one lacking its
date-start line, decode to two tasks. -/
theorem parseICS_malformed_event_tolerance_witness :
    (parseICS (specDocument
        [⟨"Alpha".data, some "20240115".data⟩,
         ⟨"Beta".data, none⟩,
         ⟨"Gamma".data, some "20240116".data⟩])).length = 2 := by
  have h := parseICS_malformed_event_tolerance
    [⟨"Alpha".data, some "20240115".data⟩,
     ⟨"Beta".data, none⟩,
     ⟨"Gamma".data, some "20240116".data⟩]
    (by
      intro b hb
      fin_cases hb
      · refine ⟨by decide, ?_, by decide, ?_⟩
        · intro c hc
          fin_cases hc <;> exact ⟨by decide, by decide⟩
        · intro ds hds
          injection hds with hds'
          subst hds'
          exact ⟨by decide, by intro c hc; fin_cases hc <;> decide⟩
      · refine ⟨by decide, ?_, by decide, ?_⟩
        · intro c hc
          fin_cases hc <;> exact ⟨by decide, by decide⟩
        · intro ds hds
          cases hds
      · refine ⟨by decide, ?_, by decide, ?_⟩
        · intro c hc
          fin_cases hc <;> exact ⟨by decide, by decide⟩
        · intro ds hds
          injection hds with hds'
          subst hds'
          exact ⟨by decide, by intro c hc; fin_cases hc <;> decide⟩)
  rw [h.2.2.1 (by decide)]
  decide

/-- `jsReplaceAll` distributes over concatenation. -/
theorem jsReplaceAll_append (c : Char) (rep A B : List Char) :
    jsReplaceAll c rep (A ++ B) = jsReplaceAll c rep A ++ jsReplaceAll c rep B := by
  induction A with
  | nil => rfl
  | cons x rest ih =>
    simp only [List.cons_append, jsReplaceAll, List.append_assoc]
    rw [show List.append rest B = rest ++ B from rfl, ih]

/-- `jsReplaceAll` fixes a string not containing the pattern. -/
theorem jsReplaceAll_of_not_mem (c : Char) (rep A : List Char) (h : c ∉ A) :
    jsReplaceAll c rep A = A := by
  induction A with
  | nil => rfl
  | cons x rest ih =>
    have hx : ¬ x = c := fun hc => h (by rw [hc]; exact List.mem_cons_self _ _)
    simp only [jsReplaceAll, if_neg hx, List.singleton_append,
      ih fun hm => h (List.mem_cons_of_mem _ hm)]

/-- Characters of a `", "`-join come from the tags or the separator. -/
theorem mem_joinComma {c : Char} :
    ∀ {tags : List (List Char)}, c ∈ joinComma tags →
      (∃ t ∈ tags, c ∈ t) ∨ c = ',' ∨ c = ' ' := by
  intro tags
  induction tags with
  | nil => intro h; cases h
  | cons t rest ih =>
    intro h
    rcases rest with _ | ⟨t2, rest2⟩
    · exact Or.inl ⟨t, List.mem_cons_self _ _, h⟩
    · rw [show joinComma (t :: t2 :: rest2)
          = t ++ ", ".data ++ joinComma (t2 :: rest2) from rfl] at h
      rcases List.mem_append.mp h with h1 | h2
      · rcases List.mem_append.mp h1 with h3 | h4
        · exact Or.inl ⟨t, List.mem_cons_self _ _, h3⟩
        · rw [show (", ".data : List Char) = [',', ' '] from rfl] at h4
          simp only [List.mem_cons, List.not_mem_nil, or_false] at h4
          rcases h4 with h5 | h5
          · exact Or.inr (Or.inl h5)
          · exact Or.inr (Or.inr h5)
      · rcases ih h2 with ⟨u, hu, hcu⟩ | h6
        · exact Or.inl ⟨u, List.mem_cons_of_mem _ hu, hcu⟩
        · exact Or.inr h6

/-- Characters of the escaped join come from the tags or the escaped
separator. -/
theorem mem_escTagsJoin {c : Char} :
    ∀ {tags : List (List Char)}, c ∈ escTagsJoin tags →
      (∃ t ∈ tags, c ∈ t) ∨ c = '\\' ∨ c = ',' ∨ c = ' ' := by
  intro tags
  induction tags with
  | nil => intro h; cases h
  | cons t rest ih =>
    intro h
    rcases rest with _ | ⟨t2, rest2⟩
    · exact Or.inl ⟨t, List.mem_cons_self _ _, h⟩
    · rw [show escTagsJoin (t :: t2 :: rest2)
          = t ++ '\\' :: ',' :: ' ' :: escTagsJoin (t2 :: rest2) from rfl] at h
      rcases List.mem_append.mp h with h1 | h2
      · exact Or.inl ⟨t, List.mem_cons_self _ _, h1⟩
      · rcases List.mem_cons.mp h2 with h5 | h2'
        · exact Or.inr (Or.inl h5)
        rcases List.mem_cons.mp h2' with h5 | h2''
        · exact Or.inr (Or.inr (Or.inl h5))
        rcases List.mem_cons.mp h2'' with h5 | h2'''
        · exact Or.inr (Or.inr (Or.inr h5))
        rcases ih h2''' with ⟨u, hu, hcu⟩ | h6
        · exact Or.inl ⟨u, List.mem_cons_of_mem _ hu, hcu⟩
        · exact Or.inr h6

/-- Escaping the commas of the `", "`-join yields the escaped join. -/
theorem jsReplaceAll_comma_joinComma :
    ∀ (tags : List (List Char)), (∀ t ∈ tags, ',' ∉ t) →
      jsReplaceAll ',' ['\\', ','] (joinComma tags) = escTagsJoin tags := by
  intro tags
  induction tags with
  | nil => intro _; rfl
  | cons t rest ih =>
    intro h
    rcases rest with _ | ⟨t2, rest2⟩
    · exact jsReplaceAll_of_not_mem _ _ _ (h t (List.mem_cons_self _ _))
    · rw [show joinComma (t :: t2 :: rest2)
          = t ++ ", ".data ++ joinComma (t2 :: rest2) from rfl]
      rw [jsReplaceAll_append, jsReplaceAll_append,
        jsReplaceAll_of_not_mem _ _ _ (h t (List.mem_cons_self _ _)),
        show jsReplaceAll ',' ['\\', ','] ", ".data = ['\\', ',', ' '] from by decide,
        ih fun u hu => h u (List.mem_cons_of_mem _ hu)]
      rw [show escTagsJoin (t :: t2 :: rest2)
          = t ++ '\\' :: ',' :: ' ' :: escTagsJoin (t2 :: rest2) from rfl]
      simp [List.append_assoc]

/-- The escape pass over the description blob: backslashes of the literal
`\n` separators double, the join's commas escape, and the clean content is
untouched. -/
theorem escapeText_blob (cat : List Char) (tags : List (List Char)) (yn : List Char)
    (hcat : cleanText cat) (htags : ∀ t ∈ tags, cleanText t)
    (hyn : yn = "Yes".data ∨ yn = "No".data) :
    escapeText ("Category: ".data ++ cat ++ ['\\', 'n'] ++ "Tags: ".data ++ joinComma tags
        ++ ['\\', 'n'] ++ "Completed: ".data ++ yn)
      = "Category: ".data ++ cat ++ ['\\', '\\', 'n'] ++ "Tags: ".data ++ escTagsJoin tags
        ++ ['\\', '\\', 'n'] ++ "Completed: ".data ++ yn := by
  have hjc : ∀ x, x ∈ joinComma tags → x ∈ (',' :: ' ' :: []) ∨ ∃ t ∈ tags, x ∈ t := by
    intro x hx
    rcases mem_joinComma hx with h1 | h2 | h2
    · exact Or.inr h1
    · exact Or.inl (by rw [h2]; exact List.mem_cons_self _ _)
    · exact Or.inl (by rw [h2]; simp)
  have hej : ∀ x, x ∈ escTagsJoin tags →
      x ∈ ('\\' :: ',' :: ' ' :: []) ∨ ∃ t ∈ tags, x ∈ t := by
    intro x hx
    rcases mem_escTagsJoin hx with h1 | h2 | h2 | h2
    · exact Or.inr h1
    · exact Or.inl (by rw [h2]; exact List.mem_cons_self _ _)
    · exact Or.inl (by rw [h2]; simp)
    · exact Or.inl (by rw [h2]; simp)
  have hbs_tags : '\\' ∉ joinComma tags := by
    intro hm
    rcases hjc _ hm with h1 | ⟨t, ht, hct⟩
    · simp at h1
    · exact (htags t ht '\\' hct).1 rfl
  have hsemi_ej : ';' ∉ escTagsJoin tags := by
    intro hm
    rcases hej _ hm with h1 | ⟨t, ht, hct⟩
    · simp at h1
    · exact (htags t ht ';' hct).2.1 rfl
  have hnl_ej : '\n' ∉ escTagsJoin tags := by
    intro hm
    rcases hej _ hm with h1 | ⟨t, ht, hct⟩
    · simp at h1
    · exact (htags t ht '\n' hct).2.2.2.1 rfl
  have hcomma_tags : ∀ t ∈ tags, ',' ∉ t := fun t ht hm => (htags t ht ',' hm).2.2.1 rfl
  have hbs_cat : '\\' ∉ cat := fun hm => (hcat '\\' hm).1 rfl
  have hsemi_cat : ';' ∉ cat := fun hm => (hcat ';' hm).2.1 rfl
  have hcomma_cat : ',' ∉ cat := fun hm => (hcat ',' hm).2.2.1 rfl
  have hnl_cat : '\n' ∉ cat := fun hm => (hcat '\n' hm).2.2.2.1 rfl
  have hsemi_jc : ';' ∉ joinComma tags := by
    intro hm
    rcases hjc _ hm with h1 | ⟨t, ht, hct⟩
    · simp at h1
    · exact (htags t ht ';' hct).2.1 rfl
  have hnl_jc : '\n' ∉ joinComma tags := by
    intro hm
    rcases hjc _ hm with h1 | ⟨t, ht, hct⟩
    · simp at h1
    · exact (htags t ht '\n' hct).2.2.2.1 rfl
  rcases hyn with rfl | rfl <;>
  · unfold escapeText
    simp only [jsReplaceAll_append]
    rw [jsReplaceAll_of_not_mem '\\' ['\\', '\\'] cat hbs_cat,
      jsReplaceAll_of_not_mem ';' ['\\', ';'] cat hsemi_cat,
      jsReplaceAll_of_not_mem ',' ['\\', ','] cat hcomma_cat,
      jsReplaceAll_of_not_mem '\n' ['\\', 'n'] cat hnl_cat,
      jsReplaceAll_of_not_mem '\\' ['\\', '\\'] (joinComma tags) hbs_tags,
      jsReplaceAll_of_not_mem ';' ['\\', ';'] (joinComma tags) hsemi_jc,
      jsReplaceAll_comma_joinComma tags hcomma_tags,
      jsReplaceAll_of_not_mem '\n' ['\\', 'n'] (escTagsJoin tags) hnl_ej]
    simp only [show jsReplaceAll '\n' ['\\', 'n'] (jsReplaceAll ',' ['\\', ',']
        (jsReplaceAll ';' ['\\', ';'] (jsReplaceAll '\\' ['\\', '\\'] ['\\', 'n'])))
        = ['\\', '\\', 'n'] from by decide]
    rw [show jsReplaceAll '\n' ['\\', 'n'] (jsReplaceAll ',' ['\\', ',']
        (jsReplaceAll ';' ['\\', ';'] (jsReplaceAll '\\' ['\\', '\\'] "Category: ".data)))
        = "Category: ".data from by decide,
      show jsReplaceAll '\n' ['\\', 'n'] (jsReplaceAll ',' ['\\', ',']
        (jsReplaceAll ';' ['\\', ';'] (jsReplaceAll '\\' ['\\', '\\'] "Tags: ".data)))
        = "Tags: ".data from by decide,
      show jsReplaceAll '\n' ['\\', 'n'] (jsReplaceAll ',' ['\\', ',']
        (jsReplaceAll ';' ['\\', ';'] (jsReplaceAll '\\' ['\\', '\\'] "Completed: ".data)))
        = "Completed: ".data from by decide]
    first
    | rw [show jsReplaceAll '\n' ['\\', 'n'] (jsReplaceAll ',' ['\\', ',']
        (jsReplaceAll ';' ['\\', ';'] (jsReplaceAll '\\' ['\\', '\\'] "Yes".data)))
        = "Yes".data from by decide]
    | rw [show jsReplaceAll '\n' ['\\', 'n'] (jsReplaceAll ',' ['\\', ',']
        (jsReplaceAll ';' ['\\', ';'] (jsReplaceAll '\\' ['\\', '\\'] "No".data)))
        = "No".data from by decide]

/-- Witness for C5 at a concrete offset (UTC+14, the extreme real offset). -/
theorem export_date_noon_anchored_witness :
    ValidDate ⟨2024, 1, 15⟩ ∧
    exportFormatDate ⟨2024, 1, 15⟩ 840 = "20240115".data ∧
    exportFormatDate ⟨2024, 1, 15⟩ (-840) = "20240115".data ∧
    exportFormatDate ⟨2024, 1, 15⟩ 0 = "20240115".data :=
  ⟨by decide,
   export_date_noon_anchored.2.2 840 (by omega) (by omega),
   export_date_noon_anchored.2.2 (-840) (by omega) (by omega),
   export_date_noon_anchored.2.2 0 (by omega) (by omega)⟩

/-- A generic `dropWhile` never lengthens its input. -/
theorem length_dropWhile_le' (p : Char → Bool) (u : List Char) :
    (u.dropWhile p).length ≤ u.length := by
  induction u with
  | nil => simp
  | cons a l ih =>
    rw [List.dropWhile_cons]
    split
    · exact le_trans ih (by simp)
    · simp

/-- A `dropWhile` that preserves length drops nothing. -/
theorem dropWhile_eq_of_length (p : Char → Bool) (u : List Char)
    (h : (u.dropWhile p).length = u.length) : u.dropWhile p = u := by
  induction u with
  | nil => rfl
  | cons a l ih =>
    rw [List.dropWhile_cons] at h ⊢
    by_cases hp : p a = true
    · rw [if_pos hp] at h ⊢
      have hle := length_dropWhile_le' p l
      simp only [List.length_cons] at h
      exfalso
      omega
    · rw [if_neg hp]

/-- A fully trimmed string is right-trimmed. -/
theorem rtrim_of_trim (s : List Char) (h : trim s = s) : rtrim s = s := by
  have h1 := length_dropWhile_le' isSpaceJS s.reverse
  have h2 := length_dropWhile_le' isSpaceJS (rtrim s)
  have h3 : (trim s).length = ((rtrim s).dropWhile isSpaceJS).length := rfl
  have h4 : (rtrim s).length = (s.reverse.dropWhile isSpaceJS).length := by
    unfold rtrim
    simp
  have h5 := congrArg List.length h
  have h7 : s.reverse.length = s.length := by simp
  have h6 : (s.reverse.dropWhile isSpaceJS).length = s.reverse.length := by omega
  have h8 := dropWhile_eq_of_length isSpaceJS s.reverse h6
  unfold rtrim
  rw [h8, List.reverse_reverse]

/-- A fully trimmed string is left-trimmed. -/
theorem ltrim_of_trim (s : List Char) (h : trim s = s) : ltrim s = s := by
  have hr := rtrim_of_trim s h
  have e : trim s = ltrim s := by unfold trim; rw [hr]
  rw [← e, h]

/-- The head of a left-trim-fixed non-empty string is not whitespace. -/
theorem head_not_space_of_ltrim (c : Char) (t : List Char) (h : ltrim (c :: t) = c :: t) :
    isSpaceJS c = false := by
  rcases hb : isSpaceJS c with _ | _
  · rfl
  · exfalso
    have h2 : ltrim (c :: t) = List.dropWhile isSpaceJS t := by
      unfold ltrim
      rw [List.dropWhile_cons, if_pos (by simp [hb])]
    rw [h] at h2
    have h3 := congrArg List.length h2
    have h4 := length_dropWhile_le' isSpaceJS t
    simp only [List.length_cons] at h3
    omega

/-- `ltrim` fixes any extension of a left-trim-fixed non-empty prefix. -/
theorem ltrim_append_keep (A B : List Char) (hA : ltrim A = A) (hne : A ≠ []) :
    ltrim (A ++ B) = A ++ B := by
  rcases A with _ | ⟨c, t⟩
  · exact absurd rfl hne
  · rw [List.cons_append, ltrim_cons _ _ (head_not_space_of_ltrim c t hA)]

/-- `rtrim` fixes any extension by a right-trim-fixed non-empty suffix,
whatever precedes it. -/
theorem rtrim_append_keep (P s : List Char) (hs : rtrim s = s) (hne : s ≠ []) :
    rtrim (P ++ s) = P ++ s := by
  rcases hrev : s.reverse with _ | ⟨c, t⟩
  · exact absurd (by simpa using congrArg List.reverse hrev) hne
  · have hsc : ¬ isSpaceJS c = true := by
      intro hws
      have hdo : rtrim s = (t.dropWhile isSpaceJS).reverse := by
        unfold rtrim
        rw [hrev, List.dropWhile_cons, if_pos hws]
      rw [hs] at hdo
      have hlen := congrArg List.length hdo
      have h1t := length_dropWhile_le' isSpaceJS t
      have h2 : s.length = t.length + 1 := by
        have := congrArg List.length hrev
        simpa using this
      simp only [List.length_reverse] at hlen
      omega
    unfold rtrim
    rw [List.reverse_append, hrev, List.cons_append, List.dropWhile_cons, if_neg hsc]
    rw [show s = (c :: t).reverse from by rw [← hrev, List.reverse_reverse]]
    simp [List.append_assoc]

/-- A line with a trim-fixed non-empty head segment and a right-trim-fixed
non-empty tail segment is trim-fixed. -/
theorem trim_three (A M B : List Char) (hA : ltrim A = A) (hAne : A ≠ [])
    (hB : rtrim B = B) (hBne : B ≠ []) :
    trim ((A ++ M) ++ B) = (A ++ M) ++ B := by
  unfold trim
  rw [rtrim_append_keep _ _ hB hBne, List.append_assoc,
    ltrim_append_keep _ _ hA hAne]

/-- `unescapeNewlines` passes over any head that is not a backslash. -/
theorem unescape_cons_ne (c : Char) (l : List Char) (h : c ≠ '\\') :
    unescapeNewlines (c :: l) = c :: unescapeNewlines l := by
  conv_lhs => unfold unescapeNewlines
  split
  · simp_all
  · rename_i heq
    rw [List.cons.injEq] at heq
    exact absurd heq.1 h
  · rename_i heq
    rw [List.cons.injEq] at heq
    obtain ⟨h1, h2⟩ := heq
    subst h1
    subst h2
    rfl

/-- `unescapeNewlines` distributes over a backslash-free prefix. -/
theorem unescape_append_no_bs (A B : List Char) (h : '\\' ∉ A) :
    unescapeNewlines (A ++ B) = A ++ unescapeNewlines B := by
  induction A with
  | nil => rfl
  | cons c rest ih =>
    rw [List.cons_append,
      unescape_cons_ne c _ (fun hc => h (by rw [hc]; exact List.mem_cons_self _ _)),
      ih fun hm => h (List.mem_cons_of_mem _ hm)]
    rfl

/-- `unescapeNewlines` fixes a backslash-free string. -/
theorem unescape_no_bs (A : List Char) (h : '\\' ∉ A) : unescapeNewlines A = A := by
  have e := unescape_append_no_bs A [] h
  rw [List.append_nil] at e
  rw [e, show unescapeNewlines ([] : List Char) = [] from rfl, List.append_nil]

/-- The doubled-backslash separator decodes to a backslash and a newline:
the scanner consumes the first backslash alone (its successor is another
backslash, not `n`) and then rewrites the remaining backslash-`n` pair. -/
theorem unescape_sep (B : List Char) :
    unescapeNewlines ('\\' :: '\\' :: 'n' :: B) = '\\' :: '\n' :: unescapeNewlines B := rfl

/-- A backslash followed by a comma passes through the decoder untouched. -/
theorem unescape_bs_comma (B : List Char) :
    unescapeNewlines ('\\' :: ',' :: B) = '\\' :: ',' :: unescapeNewlines B := rfl

/-- The separator lemma restated on the list-literal form. -/
theorem unescape_sep_lit (B : List Char) :
    unescapeNewlines (['\\', '\\', 'n'] ++ B) = '\\' :: '\n' :: unescapeNewlines B := rfl

/-- `unescapeNewlines` distributes over the escaped tag join when the tags
are backslash-free (every backslash in the join precedes a comma). -/
theorem unescape_escTagsJoin (tags : List (List Char)) (B : List Char)
    (h : ∀ t ∈ tags, '\\' ∉ t) :
    unescapeNewlines (escTagsJoin tags ++ B) = escTagsJoin tags ++ unescapeNewlines B := by
  induction tags with
  | nil => rfl
  | cons t rest ih =>
    rcases rest with _ | ⟨t2, rest2⟩
    · exact unescape_append_no_bs t B (h t (List.mem_cons_self _ _))
    · rw [show escTagsJoin (t :: t2 :: rest2)
          = t ++ '\\' :: ',' :: ' ' :: escTagsJoin (t2 :: rest2) from rfl,
        List.append_assoc,
        unescape_append_no_bs t _ (h t (List.mem_cons_self _ _)),
        show ('\\' :: ',' :: ' ' :: escTagsJoin (t2 :: rest2)) ++ B
          = '\\' :: ',' :: ' ' :: (escTagsJoin (t2 :: rest2) ++ B) from rfl,
        unescape_bs_comma,
        unescape_cons_ne ' ' _ (by decide),
        ih fun u hu => h u (List.mem_cons_of_mem _ hu)]
      simp [List.append_assoc]

/-- Decoding the emitted description: each doubled-backslash separator
decodes to backslash-newline, everything else survives. -/
theorem unescape_blob (cat : List Char) (tags : List (List Char)) (yn : List Char)
    (hcat : '\\' ∉ cat) (htags : ∀ t ∈ tags, '\\' ∉ t) (hyn : '\\' ∉ yn) :
    unescapeNewlines ("Category: ".data ++ cat ++ ['\\', '\\', 'n'] ++ "Tags: ".data
        ++ escTagsJoin tags ++ ['\\', '\\', 'n'] ++ "Completed: ".data ++ yn)
      = "Category: ".data ++ cat ++ ['\\', '\n'] ++ "Tags: ".data
        ++ escTagsJoin tags ++ ['\\', '\n'] ++ "Completed: ".data ++ yn := by
  simp only [List.append_assoc]
  rw [unescape_append_no_bs _ _ (show '\\' ∉ "Category: ".data by decide),
    unescape_append_no_bs cat _ hcat,
    unescape_sep_lit,
    unescape_append_no_bs _ _ (show '\\' ∉ "Tags: ".data by decide),
    unescape_escTagsJoin tags _ htags,
    unescape_sep_lit,
    unescape_append_no_bs _ _ (show '\\' ∉ "Completed: ".data by decide),
    unescape_no_bs yn hyn]
  rfl

/-- `split` step on a non-separator head. -/
theorem splitOnChar_cons_ne (sep c : Char) (l : List Char) (h : ¬ c = sep) :
    splitOnChar sep (c :: l)
      = match splitOnChar sep l with
        | [] => [[c]]
        | p :: ps => (c :: p) :: ps := by
  conv_lhs => unfold splitOnChar
  rw [if_neg h]

/-- `split` of a separator-free string is that single piece. -/
theorem splitOnChar_no_sep (sep : Char) (A : List Char) (h : sep ∉ A) :
    splitOnChar sep A = [A] := by
  induction A with
  | nil => rfl
  | cons c rest ih =>
    rw [splitOnChar_cons_ne sep c rest
        (fun hc => h (by rw [hc]; exact List.mem_cons_self _ _)),
      ih fun hm => h (List.mem_cons_of_mem _ hm)]

/-- `split` peels a separator-free piece before the first separator. -/
theorem splitOnChar_append_sep (sep : Char) (A B : List Char) (h : sep ∉ A) :
    splitOnChar sep (A ++ sep :: B) = A :: splitOnChar sep B := by
  induction A with
  | nil =>
    rw [List.nil_append]
    conv_lhs => unfold splitOnChar
    rw [if_pos rfl]
  | cons c rest ih =>
    rw [List.cons_append,
      splitOnChar_cons_ne sep c _ (fun hc => h (by rw [hc]; exact List.mem_cons_self _ _)),
      ih fun hm => h (List.mem_cons_of_mem _ hm)]

/-- Splitting the captured tag blob on commas: the escaped separators put
one trailing backslash on the head piece and a leading space plus trailing
backslash on every later piece. -/
theorem split_escTags (t : List Char) (more : List (List Char))
    (hc : ',' ∉ t) (hmore : ∀ u ∈ more, ',' ∉ u) :
    splitOnChar ',' (escTagsJoin (t :: more) ++ ['\\'])
      = (t ++ ['\\']) :: more.map (fun u => ' ' :: (u ++ ['\\'])) := by
  induction more generalizing t with
  | nil =>
    rw [show escTagsJoin [t] = t from rfl,
      splitOnChar_no_sep ',' (t ++ ['\\']) ?hn]
    · rfl
    case hn =>
      intro hm
      rcases List.mem_append.mp hm with h1 | h2
      · exact hc h1
      · simp at h2
  | cons t2 more2 ih =>
    have e : escTagsJoin (t :: t2 :: more2) ++ ['\\']
        = (t ++ ['\\']) ++ ',' :: (' ' :: (escTagsJoin (t2 :: more2) ++ ['\\'])) := by
      rw [show escTagsJoin (t :: t2 :: more2)
          = t ++ '\\' :: ',' :: ' ' :: escTagsJoin (t2 :: more2) from rfl]
      simp [List.append_assoc]
    rw [e, splitOnChar_append_sep ',' _ _ ?hn2,
      splitOnChar_cons_ne ',' ' ' _ (by decide),
      ih t2 (hmore t2 (List.mem_cons_self _ _))
        (fun u hu => hmore u (List.mem_cons_of_mem _ hu))]
    · rfl
    case hn2 =>
      intro hm
      rcases List.mem_append.mp hm with h1 | h2
      · exact hc h1
      · simp at h2

/-- A piece ending in a backslash is non-empty. -/
theorem append_bs_not_empty (A : List Char) : (A ++ ['\\']).isEmpty = false := by
  cases A <;> rfl

/-- `trim` fixes a trimmed non-empty tag with its trailing backslash. -/
theorem trim_tag_piece (t : List Char) (hne : t ≠ []) (htr : trim t = t) :
    trim (t ++ ['\\']) = t ++ ['\\'] := by
  rcases t with _ | ⟨h0, t'⟩
  · exact absurd rfl hne
  · exact trim_concat h0 t' ['\\']
      (head_not_space_of_ltrim h0 t' (ltrim_of_trim _ htr))
      (rtrim_of_trim _ htr) (by decide)

/-- `trim` strips the separator's leading space from a later tag piece. -/
theorem trim_space_tag_piece (u : List Char) (hne : u ≠ []) (htr : trim u = u) :
    trim (' ' :: (u ++ ['\\'])) = u ++ ['\\'] := by
  have hrt : rtrim (u ++ ['\\']) = u ++ ['\\'] :=
    rtrim_append_keep u ['\\'] (by decide) (by decide)
  unfold trim
  rw [show (' ' :: (u ++ ['\\'])) = [' '] ++ (u ++ ['\\']) from rfl,
    rtrim_append_keep [' '] _ hrt (by simp),
    show ([' '] ++ (u ++ ['\\'])) = ' ' :: (u ++ ['\\']) from rfl]
  unfold ltrim
  rw [List.dropWhile_cons, if_pos (by decide)]
  exact ltrim_append_keep u ['\\'] (ltrim_of_trim u htr) hne

/-- Split-trim-filter of the captured blob for an empty tag list: the lone
backslash survives as a single tag. -/
theorem tags_decode_nil :
    ((splitOnChar ',' (escTagsJoin ([] : List (List Char)) ++ ['\\'])).map trim).filter
      (fun tag => !tag.isEmpty) = [['\\']] := by decide

/-- Split-trim-filter of the captured blob for a non-empty tag list: every
original tag comes back with one trailing backslash. -/
theorem tags_decode_cons (t : List Char) (more : List (List Char))
    (h : ∀ u ∈ t :: more, u ≠ [] ∧ (∀ c ∈ u, c ≠ ',') ∧ trim u = u) :
    ((splitOnChar ',' (escTagsJoin (t :: more) ++ ['\\'])).map trim).filter
        (fun tag => !tag.isEmpty)
      = (t :: more).map (fun u => u ++ ['\\']) := by
  obtain ⟨ht1, ht2, ht3⟩ := h t (List.mem_cons_self _ _)
  rw [split_escTags t more (fun hm => ht2 ',' hm rfl)
      (fun u hu hm => (h u (List.mem_cons_of_mem _ hu)).2.1 ',' hm rfl),
    List.map_cons, trim_tag_piece t ht1 ht3, List.map_map]
  have hm2 : more.map (trim ∘ fun u => ' ' :: (u ++ ['\\']))
      = more.map (fun u => u ++ ['\\']) := by
    apply List.map_congr_left
    intro u hu
    obtain ⟨hu1, _, hu3⟩ := h u (List.mem_cons_of_mem _ hu)
    exact trim_space_tag_piece u hu1 hu3
  rw [hm2, List.filter_eq_self.mpr ?hall]
  · simp [List.map_cons]
  case hall =>
    intro x hx
    rcases List.mem_cons.mp hx with rfl | hx2
    · simp [append_bs_not_empty]
    · obtain ⟨u, hu, rfl⟩ := List.mem_map.mp hx2
      simp [append_bs_not_empty]

/-- The decoded tag list of the captured blob, as one expression. -/
theorem tags_decode (tags : List (List Char))
    (h : ∀ u ∈ tags, u ≠ [] ∧ (∀ c ∈ u, c ≠ ',') ∧ trim u = u) :
    ((splitOnChar ',' (escTagsJoin tags ++ ['\\'])).map trim).filter
        (fun tag => !tag.isEmpty)
      = match tags with
        | [] => [['\\']]
        | ts => ts.map fun t => t ++ ['\\'] := by
  rcases tags with _ | ⟨t, more⟩
  · exact tags_decode_nil
  · exact tags_decode_cons t more h

/-- One step of `isPrefixOf` on two cons cells. -/
theorem isPrefixOf_cons_eq (a b : Char) (as bs : List Char) :
    (a :: as).isPrefixOf (b :: bs) = (a == b && as.isPrefixOf bs) := rfl

/-- The scan moves on when the literal does not match here. -/
theorem scanFor_cons_skip (lit : List Char) (cap : List Char → Option (List Char))
    (c : Char) (l : List Char) (h : lit.isPrefixOf (c :: l) = false) :
    scanFor lit cap (c :: l) = scanFor lit cap l := by
  conv_lhs => unfold scanFor
  rw [if_neg (by simp [h])]

/-- The scan skips over a whole region in which the literal matches at no
position. -/
theorem scanFor_skip (lit : List Char) (cap : List Char → Option (List Char)) :
    ∀ (P Q : List Char),
      (∀ s, s ≠ [] → s <:+ P → lit.isPrefixOf (s ++ Q) = false) →
      scanFor lit cap (P ++ Q) = scanFor lit cap Q := by
  intro P
  induction P with
  | nil => intro Q _; rw [List.nil_append]
  | cons c P' ih =>
    intro Q h
    have h0 : lit.isPrefixOf (c :: (P' ++ Q)) = false := by
      have e := h (c :: P') (by simp) (List.suffix_refl _)
      rwa [List.cons_append] at e
    rw [List.cons_append, scanFor_cons_skip _ _ _ _ h0,
      ih Q fun s hs hsuf => h s hs (hsuf.trans (List.suffix_cons c P'))]

/-- The scan stops at a position where both the literal and the suffix
capture succeed. -/
theorem scanFor_at_match (lit : List Char) (cap : List Char → Option (List Char))
    (s v : List Char) (hne : s ≠ [])
    (hpf : lit.isPrefixOf s = true)
    (hcap : cap (s.drop lit.length) = some v) :
    scanFor lit cap s = some v := by
  rcases s with _ | ⟨c, l⟩
  · exact absurd rfl hne
  · conv_lhs => unfold scanFor
    rw [if_pos hpf, hcap]

/-- `Tags:` cannot match starting inside a colon-free region that is
followed by a backslash: a match of width five would need a colon among the
first five characters, and the backslash cuts every shorter remainder. -/
theorem tags_not_prefix_clean (s R : List Char) (hs : ':' ∉ s) :
    "Tags:".data.isPrefixOf (s ++ '\\' :: R) = false := by
  rcases s with _ | ⟨a, _ | ⟨b, _ | ⟨c, _ | ⟨d, _ | ⟨e, s5⟩⟩⟩⟩⟩
  · rfl
  · rw [show ([a] ++ '\\' :: R) = a :: '\\' :: R from rfl,
      show ("Tags:".data : List Char) = 'T' :: ['a', 'g', 's', ':'] from rfl,
      isPrefixOf_cons_eq,
      show ((['a', 'g', 's', ':'] : List Char).isPrefixOf ('\\' :: R) : Bool)
        = false from rfl,
      Bool.and_false]
  · rw [show ([a, b] ++ '\\' :: R) = a :: b :: '\\' :: R from rfl,
      show ("Tags:".data : List Char) = 'T' :: 'a' :: ['g', 's', ':'] from rfl,
      isPrefixOf_cons_eq, isPrefixOf_cons_eq,
      show ((['g', 's', ':'] : List Char).isPrefixOf ('\\' :: R) : Bool) = false from rfl,
      Bool.and_false, Bool.and_false]
  · rw [show ([a, b, c] ++ '\\' :: R) = a :: b :: c :: '\\' :: R from rfl,
      show ("Tags:".data : List Char) = 'T' :: 'a' :: 'g' :: ['s', ':'] from rfl,
      isPrefixOf_cons_eq, isPrefixOf_cons_eq, isPrefixOf_cons_eq,
      show ((['s', ':'] : List Char).isPrefixOf ('\\' :: R) : Bool) = false from rfl,
      Bool.and_false, Bool.and_false, Bool.and_false]
  · rw [show ([a, b, c, d] ++ '\\' :: R) = a :: b :: c :: d :: '\\' :: R from rfl,
      show ("Tags:".data : List Char) = 'T' :: 'a' :: 'g' :: 's' :: [':'] from rfl,
      isPrefixOf_cons_eq, isPrefixOf_cons_eq, isPrefixOf_cons_eq, isPrefixOf_cons_eq,
      show (([':'] : List Char).isPrefixOf ('\\' :: R) : Bool) = false from rfl,
      Bool.and_false, Bool.and_false, Bool.and_false, Bool.and_false]
  · rcases hx : ("Tags:".data.isPrefixOf ((a :: b :: c :: d :: e :: s5) ++ '\\' :: R) : Bool)
      with _ | _
    · rfl
    · exfalso
      rw [show ((a :: b :: c :: d :: e :: s5) ++ '\\' :: R)
          = a :: b :: c :: d :: e :: (s5 ++ '\\' :: R) from rfl,
        show ("Tags:".data : List Char) = 'T' :: 'a' :: 'g' :: 's' :: ':' :: [] from rfl]
        at hx
      simp only [isPrefixOf_cons_eq, Bool.and_eq_true, beq_iff_eq] at hx
      obtain ⟨-, -, -, -, he, -⟩ := hx
      have hmem : ':' ∈ a :: b :: c :: d :: e :: s5 := by rw [he]; simp
      exact hs hmem

/-- A trimmed-and-non-empty tag list's escaped join starts with a
non-whitespace character. -/
theorem escTagsJoin_head (tags : List (List Char))
    (h : ∀ t ∈ tags, t ≠ [] ∧ trim t = t) :
    ∀ c, (escTagsJoin tags).head? = some c → isSpaceJS c = false := by
  rcases tags with _ | ⟨t, more⟩
  · intro c hc
    simp [escTagsJoin] at hc
  · obtain ⟨h1, h2⟩ := h t (List.mem_cons_self _ _)
    rcases t with _ | ⟨h0, t'⟩
    · exact absurd rfl h1
    · have hsp := head_not_space_of_ltrim h0 t' (ltrim_of_trim _ h2)
      intro c hc
      rcases more with _ | ⟨t2, more2⟩
      · rw [show escTagsJoin [h0 :: t'] = h0 :: t' from rfl] at hc
        simp only [List.head?_cons, Option.some.injEq] at hc
        rw [← hc]
        exact hsp
      · rw [show escTagsJoin ((h0 :: t') :: t2 :: more2)
            = (h0 :: t') ++ '\\' :: ',' :: ' ' :: escTagsJoin (t2 :: more2) from rfl,
          List.cons_append] at hc
        simp only [List.head?_cons, Option.some.injEq] at hc
        rw [← hc]
        exact hsp

/-- The escaped join of clean tags is newline-free. -/
theorem escTagsJoin_no_nl (tags : List (List Char))
    (h : ∀ t ∈ tags, cleanText t) : '\n' ∉ escTagsJoin tags := by
  intro hm
  rcases mem_escTagsJoin hm with ⟨t, ht, hct⟩ | h2 | h2 | h2
  · exact (h t ht '\n' hct).2.2.2.1 rfl
  · exact absurd h2 (by decide)
  · exact absurd h2 (by decide)
  · exact absurd h2 (by decide)

/-- `takeWhile (≠ newline)` captures a newline-free region up to and
including the backslash that precedes the next newline. -/
theorem takeWhile_nl (E R : List Char) (h : '\n' ∉ E) :
    (E ++ '\\' :: '\n' :: R).takeWhile (fun x => x ≠ '\n') = E ++ ['\\'] := by
  induction E with
  | nil =>
    rw [List.nil_append]
    rfl
  | cons c rest ih =>
    have hcne : c ≠ '\n' := fun hc => h (by rw [hc]; exact List.mem_cons_self _ _)
    rw [List.cons_append, List.takeWhile_cons, if_pos (by simp [hcne]),
      ih fun hm => h (List.mem_cons_of_mem _ hm)]
    rfl

/-- `wsCaptureFrom` at a successor position whose character is not a
newline returns the maximal non-newline run from there. -/
theorem wsCaptureFrom_succ_hit (t : List Char) (k : Nat) (c : Char)
    (hh : (t.drop (k + 1)).head? = some c) (hc : c ≠ '\n') :
    wsCaptureFrom t (k + 1)
      = some ((t.drop (k + 1)).takeWhile (fun x => x ≠ '\n')) := by
  conv_lhs => unfold wsCaptureFrom
  simp only [hh]
  rw [if_pos hc]

/-- The `\s*([^\n]+)` capture after `Tags:`: one space of whitespace, then
everything up to the backslash before the next newline. -/
theorem wsCapture_at_tags (E R : List Char)
    (hhead : ∀ c, E.head? = some c → isSpaceJS c = false)
    (hnl : '\n' ∉ E) :
    wsCapture (' ' :: (E ++ '\\' :: '\n' :: R)) = some (E ++ ['\\']) := by
  rcases E with _ | ⟨h0, E'⟩
  · rw [List.nil_append]
    rfl
  · have hsp : isSpaceJS h0 = false := hhead h0 rfl
    have hne : h0 ≠ '\n' := fun hc => hnl (by rw [hc]; exact List.mem_cons_self _ _)
    unfold wsCapture
    rw [show (' ' :: ((h0 :: E') ++ '\\' :: '\n' :: R))
        = ' ' :: h0 :: (E' ++ '\\' :: '\n' :: R) from rfl]
    rw [show ((' ' :: h0 :: (E' ++ '\\' :: '\n' :: R)).takeWhile isSpaceJS)
        = [' '] from by
      rw [List.takeWhile_cons, if_pos (by decide), List.takeWhile_cons,
        if_neg (by simp [hsp])]]
    rw [show ([' '] : List Char).length = 0 + 1 from rfl,
      wsCaptureFrom_succ_hit (' ' :: h0 :: (E' ++ '\\' :: '\n' :: R)) 0 h0 rfl hne,
      show ((' ' :: h0 :: (E' ++ '\\' :: '\n' :: R)).drop (0 + 1))
        = (h0 :: E') ++ '\\' :: '\n' :: R from rfl,
      takeWhile_nl _ _ hnl]

/-- The `Tags:` extraction on the decoded description finds the escaped
join with its trailing backslash: the literal matches nowhere earlier, and
the capture runs to the backslash left by the escaped separator. -/
theorem findTags_blob (cat : List Char) (tags : List (List Char)) (yn : List Char)
    (hcatc : ':' ∉ cat)
    (htags : ∀ t ∈ tags, t ≠ [] ∧ cleanText t ∧ trim t = t) :
    findTags ("Category: ".data ++ cat ++ ['\\', '\n'] ++ "Tags: ".data
        ++ escTagsJoin tags ++ ['\\', '\n'] ++ "Completed: ".data ++ yn)
      = some (escTagsJoin tags ++ ['\\']) := by
  unfold findTags
  simp only [List.append_assoc]
  rw [show (['\\', '\n'] : List Char) ++ ("Tags: ".data ++ (escTagsJoin tags
        ++ (['\\', '\n'] ++ ("Completed: ".data ++ yn))))
      = '\\' :: '\n' :: ("Tags: ".data ++ (escTagsJoin tags
        ++ '\\' :: '\n' :: ("Completed: ".data ++ yn))) from by
    simp [List.append_assoc]]
  rw [scanFor_skip _ _ "Category: ".data _ ?hcatskip]
  rw [scanFor_skip _ _ cat _ ?hcs]
  rw [scanFor_cons_skip "Tags:".data wsCapture '\\'
    ('\n' :: ("Tags: ".data ++ (escTagsJoin tags
      ++ '\\' :: '\n' :: ("Completed: ".data ++ yn)))) rfl]
  rw [scanFor_cons_skip "Tags:".data wsCapture '\n'
    ("Tags: ".data ++ (escTagsJoin tags
      ++ '\\' :: '\n' :: ("Completed: ".data ++ yn))) rfl]
  rw [show ("Tags: ".data ++ (escTagsJoin tags
        ++ '\\' :: '\n' :: ("Completed: ".data ++ yn)))
      = 'T' :: ("ags: ".data ++ (escTagsJoin tags
        ++ '\\' :: '\n' :: ("Completed: ".data ++ yn))) from rfl]
  refine scanFor_at_match _ _ _ _ (by simp) rfl ?_
  rw [show (('T' :: ("ags: ".data ++ (escTagsJoin tags
        ++ '\\' :: '\n' :: ("Completed: ".data ++ yn)))).drop ("Tags:".data.length))
      = ' ' :: (escTagsJoin tags ++ '\\' :: '\n' :: ("Completed: ".data ++ yn)) from rfl]
  exact wsCapture_at_tags _ _
    (escTagsJoin_head tags fun t ht => ⟨(htags t ht).1, (htags t ht).2.2⟩)
    (escTagsJoin_no_nl tags fun t ht => (htags t ht).2.1)
  case hcatskip =>
    intro s hne hsuf
    rw [← List.mem_tails] at hsuf
    fin_cases hsuf
    · rfl
    · rfl
    · rfl
    · rfl
    · rfl
    · rfl
    · rfl
    · rfl
    · rfl
    · rfl
    · exact absurd rfl hne
  case hcs =>
    intro s hne hsuf
    exact tags_not_prefix_clean s _ fun hm => hcatc (hsuf.subset hm)

/-- A `DESCRIPTION` line affects neither `text`, `date` nor `pinned`, and
when the `Tags:` capture is the escaped join with its stray backslash the
resulting tag list appends one backslash to every tag (one lone backslash
for an empty list). -/
theorem processLine_description_proj (ev : ParsedTodo) (v : List Char)
    (tags : List (List Char))
    (hft : findTags (unescapeNewlines v) = some (escTagsJoin tags ++ ['\\']))
    (htags : ∀ u ∈ tags, u ≠ [] ∧ (∀ c ∈ u, c ≠ ',') ∧ trim u = u) :
    (processLine ev ("DESCRIPTION:".data ++ v)).text = ev.text ∧
    (processLine ev ("DESCRIPTION:".data ++ v)).date = ev.date ∧
    (processLine ev ("DESCRIPTION:".data ++ v)).pinned = ev.pinned ∧
    (processLine ev ("DESCRIPTION:".data ++ v)).tags
      = ((splitOnChar ',' (escTagsJoin tags ++ ['\\'])).map trim).filter
          (fun tag => !tag.isEmpty) := by
  rw [processLine_description]
  rcases hfc : findCategory (unescapeNewlines v) with _ | cap1 <;>
    rcases hcm : findCompleted (unescapeNewlines v) with _ | cap2 <;>
      simp only [hfc, hft, hcm] <;>
      exact ⟨trivial, trivial, trivial, trivial⟩

/-- `escapeText` fixes a clean string. -/
theorem escapeText_clean (s : List Char) (h : cleanText s) : escapeText s = s := by
  unfold escapeText
  rw [jsReplaceAll_of_not_mem '\\' _ s (fun hm => (h '\\' hm).1 rfl),
    jsReplaceAll_of_not_mem ';' _ s (fun hm => (h ';' hm).2.1 rfl),
    jsReplaceAll_of_not_mem ',' _ s (fun hm => (h ',' hm).2.2.1 rfl),
    jsReplaceAll_of_not_mem '\n' _ s (fun hm => (h '\n' hm).2.2.2.1 rfl)]

/-- `formatDate` under a real-world offset: the noon-anchored rendering is
the plain `YYYYMMDD` of the civil date, eight digits long. -/
theorem exportFormatDate_spec (d : CivilDate) (o : Int) (h : ValidDate d)
    (hy1 : 1000 ≤ d.year) (hy2 : d.year ≤ 9999) (ho1 : -840 ≤ o) (ho2 : o ≤ 840) :
    exportFormatDate d o = natDigits d.year ++ pad2 d.month ++ pad2 d.day ∧
    (natDigits d.year).length = 4 ∧ (pad2 d.month).length = 2 ∧
    (pad2 d.day).length = 2 ∧
    (∀ c ∈ natDigits d.year ++ pad2 d.month ++ pad2 d.day, c.isDigit = true) := by
  have base : exportFormatDate d o = natDigits d.year ++ pad2 d.month ++ pad2 d.day := by
    unfold exportFormatDate
    rw [localCivilDate_noon h ho1 ho2]
  obtain ⟨_, _, hm2, _, hd2⟩ := h
  have hdm : d.day ≤ 99 := by
    have hle : daysInMonth d.year d.month ≤ 31 := by
      unfold daysInMonth
      split
      · split <;> omega
      · split <;> omega
    omega
  have hm99 : d.month ≤ 99 := by omega
  obtain ⟨hml, hmd⟩ := pad2_shape hm99
  obtain ⟨hdl, hdd⟩ := pad2_shape hdm
  have hyl : (natDigits d.year).length = 4 := by
    rw [natDigits_four hy1 hy2]
    rfl
  refine ⟨base, hyl, hml, hdl, ?_⟩
  intro c hc
  rw [natDigits_four hy1 hy2] at hc
  simp only [List.mem_append, List.mem_cons, List.not_mem_nil, or_false] at hc
  rcases hc with ((rfl | rfl | rfl | rfl) | hc) | hc
  · exact digitChar_isDigit _
  · exact digitChar_isDigit _
  · exact digitChar_isDigit _
  · exact digitChar_isDigit _
  · exact hmd c hc
  · exact hdd c hc

/-- Recomposing the `YYYYMMDD` slices taken by the decoder. -/
theorem take_drop_date (Y M D : List Char) (hY : Y.length = 4) (hM : M.length = 2)
    (hD : D.length = 2) :
    (Y ++ M ++ D).take 4 = Y ∧ ((Y ++ M ++ D).drop 4).take 2 = M ∧
    ((Y ++ M ++ D).drop 6).take 2 = D := by
  refine ⟨?_, ?_, ?_⟩
  · rw [List.append_assoc]
    exact List.take_left' hY
  · rw [List.append_assoc, List.drop_left' hY]
    exact List.take_left' hM
  · have h6 : (Y ++ M).length = 6 := by rw [List.length_append]; omega
    rw [List.drop_left' h6]
    exact List.take_of_length_le (by omega)

/-- The decoded `STATUS` value reproduces the completion flag. -/
theorem status_decide (b : Bool) :
    decide ((if b then "COMPLETED".data else "CONFIRMED".data) = "COMPLETED".data)
      = b := by
  cases b <;> decide

/-- Field-wise extensionality for the decoder accumulator. -/
theorem parsedTodo_ext (a b : ParsedTodo) (h1 : a.text = b.text) (h2 : a.date = b.date)
    (h3 : a.completed = b.completed) (h4 : a.category = b.category)
    (h5 : a.tags = b.tags) (h6 : a.pinned = b.pinned) : a = b := by
  cases a
  cases b
  simp_all

/-- A rendered ISO date is never empty. -/
theorem isoDate_ne_nil (d : CivilDate) : isoDate d ≠ [] := by
  unfold isoDate
  exact append_dash_ne_nil _ _

/-- The decoded image of a task, with its tag list written as the decoder
computes it (split on commas, trim, drop empties). -/
theorem decodedTodo_fields (todo : Todo)
    (h : ∀ u ∈ todo.tags, u ≠ [] ∧ (∀ c ∈ u, c ≠ ',') ∧ trim u = u) :
    decodedTodo todo
      = { text := some todo.text, date := some (isoDate todo.date),
          completed := todo.completed, category := todo.category,
          tags := ((splitOnChar ',' (escTagsJoin todo.tags ++ ['\\'])).map trim).filter
            (fun tag => !tag.isEmpty),
          pinned := false } := by
  unfold decodedTodo
  rcases htg : todo.tags with _ | ⟨t, more⟩
  · rw [tags_decode_nil]
  · rw [tags_decode_cons t more (fun u hu => h u (by rw [htg]; exact hu))]

set_option maxHeartbeats 1000000 in
/-- Decoding the tail of an emitted block from the `DESCRIPTION` line on:
the description contributes the backslash-laden tags, `CATEGORIES` restores
the category, `STATUS` restores the flag, and `END:VEVENT` commits. -/
theorem loop_commit_block (ev : ParsedTodo) (cat : List Char)
    (tags : List (List Char)) (b : Bool) (rest : List (List Char))
    (hcat : cleanText cat) (hcatc : ∀ c ∈ cat, c ≠ ':') (hcatr : rtrim cat = cat)
    (htags : ∀ t ∈ tags, t ≠ [] ∧ cleanText t ∧ (∀ c ∈ t, c ≠ ':') ∧ trim t = t)
    (htx : truthyStr ev.text = true) (hdt : truthyStr ev.date = true) :
    parseLinesLoop
      (("DESCRIPTION:".data ++ ("Category: ".data ++ cat ++ ['\\', '\\', 'n']
          ++ "Tags: ".data ++ escTagsJoin tags ++ ['\\', '\\', 'n'] ++ "Completed: ".data
          ++ (if b then "Yes".data else "No".data)))
        :: ("CATEGORIES:".data ++ cat)
        :: ("STATUS:".data ++ (if b then "COMPLETED".data else "CONFIRMED".data))
        :: "END:VEVENT".data :: rest) (some ev)
      = { text := ev.text, date := ev.date, completed := b, category := cat,
          tags := ((splitOnChar ',' (escTagsJoin tags ++ ['\\'])).map trim).filter
            (fun tag => !tag.isEmpty),
          pinned := ev.pinned } :: parseLinesLoop rest none := by
  have hyn_or : (if b then "Yes".data else "No".data) = "Yes".data
      ∨ (if b then "Yes".data else "No".data) = "No".data := by
    cases b <;> simp
  have hynr : rtrim (if b then "Yes".data else "No".data)
      = (if b then "Yes".data else "No".data) := by
    cases b <;> decide
  have hynne : (if b then "Yes".data else "No".data) ≠ [] := by
    cases b <;> decide
  have hynbs : '\\' ∉ (if b then "Yes".data else "No".data) := by
    cases b <;> decide
  have hBc : ("BEGIN:VEVENT".data : List Char) = 'B' :: "EGIN:VEVENT".data := rfl
  have hEc : ("END:VEVENT".data : List Char) = 'E' :: "ND:VEVENT".data := rfl
  -- DESCRIPTION line
  have e6 : "DESCRIPTION:".data ++ ("Category: ".data ++ cat ++ ['\\', '\\', 'n']
      ++ "Tags: ".data ++ escTagsJoin tags ++ ['\\', '\\', 'n'] ++ "Completed: ".data
      ++ (if b then "Yes".data else "No".data))
      = ("DESCRIPTION:".data ++ ("Category: ".data ++ cat ++ ['\\', '\\', 'n']
        ++ "Tags: ".data ++ escTagsJoin tags ++ ['\\', '\\', 'n'] ++ "Completed: ".data))
        ++ (if b then "Yes".data else "No".data) := by
    simp [List.append_assoc]
  have htrim6 : trim ("DESCRIPTION:".data ++ ("Category: ".data ++ cat
      ++ ['\\', '\\', 'n'] ++ "Tags: ".data ++ escTagsJoin tags ++ ['\\', '\\', 'n']
      ++ "Completed: ".data ++ (if b then "Yes".data else "No".data)))
      = "DESCRIPTION:".data ++ ("Category: ".data ++ cat ++ ['\\', '\\', 'n']
      ++ "Tags: ".data ++ escTagsJoin tags ++ ['\\', '\\', 'n'] ++ "Completed: ".data
      ++ (if b then "Yes".data else "No".data)) := by
    rw [e6]
    exact trim_three _ _ _ (by decide) (by decide) hynr hynne
  have h6c : "DESCRIPTION:".data ++ ("Category: ".data ++ cat ++ ['\\', '\\', 'n']
      ++ "Tags: ".data ++ escTagsJoin tags ++ ['\\', '\\', 'n'] ++ "Completed: ".data
      ++ (if b then "Yes".data else "No".data))
      = 'D' :: ("ESCRIPTION:".data ++ ("Category: ".data ++ cat ++ ['\\', '\\', 'n']
      ++ "Tags: ".data ++ escTagsJoin tags ++ ['\\', '\\', 'n'] ++ "Completed: ".data
      ++ (if b then "Yes".data else "No".data))) := rfl
  rw [loop_cons_field _ _ _
      (by rw [htrim6, h6c, hBc]; exact cons_ne_cons _ _ _ _ (by decide))
      (by rw [htrim6, h6c, hEc]; exact cons_ne_cons _ _ _ _ (by decide))
      (by rw [htrim6]
          exact contains_of_mem _ _ (List.mem_append.mpr (Or.inl (by decide)))),
    htrim6]
  -- CATEGORIES line
  have htrim7 : trim ("CATEGORIES:".data ++ cat) = "CATEGORIES:".data ++ cat := by
    unfold trim
    rw [rtrim_append _ _ (by decide) hcatr, ltrim_append_keep _ _ (by decide) (by decide)]
  have h7c : "CATEGORIES:".data ++ cat = 'C' :: ("ATEGORIES:".data ++ cat) := rfl
  rw [loop_cons_field _ _ _
      (by rw [htrim7, h7c, hBc]; exact cons_ne_cons _ _ _ _ (by decide))
      (by rw [htrim7, h7c, hEc]; exact cons_ne_cons _ _ _ _ (by decide))
      (by rw [htrim7]
          exact contains_of_mem _ _ (List.mem_append.mpr (Or.inl (by decide)))),
    htrim7, processLine_categories]
  -- STATUS line
  have htrim8 : trim ("STATUS:".data
      ++ (if b then "COMPLETED".data else "CONFIRMED".data))
      = "STATUS:".data ++ (if b then "COMPLETED".data else "CONFIRMED".data) := by
    cases b <;> decide
  rw [loop_cons_field _ _ _
      (by rw [htrim8]; cases b <;> decide)
      (by rw [htrim8]; cases b <;> decide)
      (by rw [htrim8]; cases b <;> decide),
    htrim8, processLine_status]
  -- description extraction facts
  have hft : findTags (unescapeNewlines ("Category: ".data ++ cat ++ ['\\', '\\', 'n']
      ++ "Tags: ".data ++ escTagsJoin tags ++ ['\\', '\\', 'n'] ++ "Completed: ".data
      ++ (if b then "Yes".data else "No".data)))
      = some (escTagsJoin tags ++ ['\\']) := by
    rw [unescape_blob cat tags _
        (fun hm => (hcat '\\' hm).1 rfl)
        (fun t ht hm => ((htags t ht).2.1 '\\' hm).1 rfl)
        hynbs]
    exact findTags_blob cat tags _
      (fun hm => hcatc ':' hm rfl)
      (fun t ht => ⟨(htags t ht).1, (htags t ht).2.1, (htags t ht).2.2.2⟩)
  obtain ⟨hptext, hpdate, hppin, hptags⟩ :=
    processLine_description_proj ev
      ("Category: ".data ++ cat ++ ['\\', '\\', 'n'] ++ "Tags: ".data
        ++ escTagsJoin tags ++ ['\\', '\\', 'n'] ++ "Completed: ".data
        ++ (if b then "Yes".data else "No".data))
      tags hft
      (fun u hu => ⟨(htags u hu).1,
        (fun c hc => ((htags u hu).2.1 c hc).2.2.1),
        (htags u hu).2.2.2⟩)
  -- END line: commit
  rw [loop_cons_end_commit _ _ _ (by decide) ?htr ?hdr]
  · congr 1
    refine parsedTodo_ext _ _ ?_ ?_ ?_ ?_ ?_ ?_
    · show (processLine ev ("DESCRIPTION:".data ++ ("Category: ".data ++ cat
        ++ ['\\', '\\', 'n'] ++ "Tags: ".data ++ escTagsJoin tags ++ ['\\', '\\', 'n']
        ++ "Completed: ".data ++ (if b then "Yes".data else "No".data)))).text = ev.text
      exact hptext
    · show (processLine ev ("DESCRIPTION:".data ++ ("Category: ".data ++ cat
        ++ ['\\', '\\', 'n'] ++ "Tags: ".data ++ escTagsJoin tags ++ ['\\', '\\', 'n']
        ++ "Completed: ".data ++ (if b then "Yes".data else "No".data)))).date = ev.date
      exact hpdate
    · show decide ((if b then "COMPLETED".data else "CONFIRMED".data)
          = "COMPLETED".data) = b
      exact status_decide b
    · rfl
    · show (processLine ev ("DESCRIPTION:".data ++ ("Category: ".data ++ cat
        ++ ['\\', '\\', 'n'] ++ "Tags: ".data ++ escTagsJoin tags ++ ['\\', '\\', 'n']
        ++ "Completed: ".data ++ (if b then "Yes".data else "No".data)))).tags
        = ((splitOnChar ',' (escTagsJoin tags ++ ['\\'])).map trim).filter
            (fun tag => !tag.isEmpty)
      exact hptags
    · show (processLine ev ("DESCRIPTION:".data ++ ("Category: ".data ++ cat
        ++ ['\\', '\\', 'n'] ++ "Tags: ".data ++ escTagsJoin tags ++ ['\\', '\\', 'n']
        ++ "Completed: ".data ++ (if b then "Yes".data else "No".data)))).pinned
        = ev.pinned
      exact hppin
  case htr =>
    show truthyStr ((processLine ev ("DESCRIPTION:".data ++ ("Category: ".data ++ cat
      ++ ['\\', '\\', 'n'] ++ "Tags: ".data ++ escTagsJoin tags ++ ['\\', '\\', 'n']
      ++ "Completed: ".data ++ (if b then "Yes".data else "No".data)))).text) = true
    rw [hptext]
    exact htx
  case hdr =>
    show truthyStr ((processLine ev ("DESCRIPTION:".data ++ ("Category: ".data ++ cat
      ++ ['\\', '\\', 'n'] ++ "Tags: ".data ++ escTagsJoin tags ++ ['\\', '\\', 'n']
      ++ "Completed: ".data ++ (if b then "Yes".data else "No".data)))).date) = true
    rw [hpdate]
    exact hdt

set_option maxHeartbeats 1000000 in
/-- Decoding one emitted event block: `BEGIN:VEVENT` opens a fresh
accumulator, the seven payload lines are field-extracted (the `UID` and
`DTSTAMP` keys match no known field), and `END:VEVENT` commits exactly the
decoded image of the task. -/
theorem loop_eventLines (todo : Todo) (stamp : List Char) (o : Int)
    (rest : List (List Char)) (st : Option ParsedTodo)
    (h : CleanTodo todo) (hstamp : rtrim stamp = stamp)
    (ho1 : -840 ≤ o) (ho2 : o ≤ 840) :
    parseLinesLoop (todoEventLines todo stamp o ++ rest) st
      = decodedTodo todo :: parseLinesLoop rest none := by
  obtain ⟨ht1, ht2, ht3, hc1, hc2, hc3, htags, hid, hvd, hy1, hy2⟩ := h
  obtain ⟨hexp, hyl, hml, hdl, hdig⟩ :=
    exportFormatDate_spec todo.date o hvd hy1 hy2 ho1 ho2
  have hv8 : (natDigits todo.date.year ++ pad2 todo.date.month
      ++ pad2 todo.date.day).length = 8 := by
    rw [List.length_append, List.length_append, hyl, hml, hdl]
  obtain ⟨htk1, htk2, htk3⟩ := take_drop_date (natDigits todo.date.year)
    (pad2 todo.date.month) (pad2 todo.date.day) hyl hml hdl
  have hyn_or : (if todo.completed then "Yes".data else "No".data) = "Yes".data
      ∨ (if todo.completed then "Yes".data else "No".data) = "No".data := by
    cases todo.completed <;> simp
  have hesc : escapeText todo.text = todo.text := escapeText_clean _ ht2
  have hBc : ("BEGIN:VEVENT".data : List Char) = 'B' :: "EGIN:VEVENT".data := rfl
  have hEc : ("END:VEVENT".data : List Char) = 'E' :: "ND:VEVENT".data := rfl
  have e : todoEventLines todo stamp o ++ rest
      = "BEGIN:VEVENT".data
        :: ("UID:todo-".data ++ todo.id ++ "@dwmyo.app".data)
        :: ("DTSTAMP:".data ++ stamp)
        :: ("DTSTART;VALUE=DATE:".data ++ exportFormatDate todo.date o)
        :: ("SUMMARY:".data ++ escapeText todo.text)
        :: ("DESCRIPTION:".data ++ escapeText ("Category: ".data ++ todo.category
            ++ ['\\', 'n'] ++ "Tags: ".data ++ joinComma todo.tags ++ ['\\', 'n']
            ++ "Completed: ".data
            ++ (if todo.completed then "Yes".data else "No".data)))
        :: ("CATEGORIES:".data ++ todo.category)
        :: ("STATUS:".data
            ++ (if todo.completed then "COMPLETED".data else "CONFIRMED".data))
        :: "END:VEVENT".data :: rest := rfl
  rw [e, hexp, hesc,
    escapeText_blob todo.category todo.tags _ hc1 (fun t ht => (htags t ht).2.1) hyn_or]
  rw [loop_cons_begin _ _ _ (by decide)]
  -- UID line
  have htrimU : trim ("UID:todo-".data ++ todo.id ++ "@dwmyo.app".data)
      = "UID:todo-".data ++ todo.id ++ "@dwmyo.app".data :=
    trim_three _ _ _ (by decide) (by decide) (by decide) (by decide)
  have hUc : "UID:todo-".data ++ todo.id ++ "@dwmyo.app".data
      = 'U' :: ("ID:todo-".data ++ todo.id ++ "@dwmyo.app".data) := rfl
  rw [loop_cons_field _ _ _
      (by rw [htrimU, hUc, hBc]; exact cons_ne_cons _ _ _ _ (by decide))
      (by rw [htrimU, hUc, hEc]; exact cons_ne_cons _ _ _ _ (by decide))
      (by rw [htrimU]
          exact contains_of_mem _ _
            (List.mem_append.mpr (Or.inl (List.mem_append.mpr (Or.inl (by decide)))))),
    htrimU,
    show "UID:todo-".data ++ todo.id ++ "@dwmyo.app".data
      = "UID:".data ++ ("todo-".data ++ todo.id ++ "@dwmyo.app".data) from rfl,
    processLine_uid]
  -- DTSTAMP line
  have htrim3 : trim ("DTSTAMP:".data ++ stamp) = "DTSTAMP:".data ++ stamp := by
    unfold trim
    rw [rtrim_append _ _ (by decide) hstamp, ltrim_append_keep _ _ (by decide) (by decide)]
  have h3c : "DTSTAMP:".data ++ stamp = 'D' :: ("TSTAMP:".data ++ stamp) := rfl
  rw [loop_cons_field _ _ _
      (by rw [htrim3, h3c, hBc]; exact cons_ne_cons _ _ _ _ (by decide))
      (by rw [htrim3, h3c, hEc]; exact cons_ne_cons _ _ _ _ (by decide))
      (by rw [htrim3]
          exact contains_of_mem _ _ (List.mem_append.mpr (Or.inl (by decide)))),
    htrim3, processLine_dtstamp]
  -- DTSTART line
  have hrt4 : rtrim (natDigits todo.date.year ++ pad2 todo.date.month
      ++ pad2 todo.date.day) = natDigits todo.date.year ++ pad2 todo.date.month
      ++ pad2 todo.date.day :=
    rtrim_no_space _ fun c hc => not_space_of_digit c (hdig c hc)
  have htrim4 : trim ("DTSTART;VALUE=DATE:".data ++ (natDigits todo.date.year
      ++ pad2 todo.date.month ++ pad2 todo.date.day))
      = "DTSTART;VALUE=DATE:".data ++ (natDigits todo.date.year
      ++ pad2 todo.date.month ++ pad2 todo.date.day) := by
    unfold trim
    rw [rtrim_append _ _ (by decide) hrt4, ltrim_append_keep _ _ (by decide) (by decide)]
  have h4c : "DTSTART;VALUE=DATE:".data ++ (natDigits todo.date.year
      ++ pad2 todo.date.month ++ pad2 todo.date.day)
      = 'D' :: ("TSTART;VALUE=DATE:".data ++ (natDigits todo.date.year
      ++ pad2 todo.date.month ++ pad2 todo.date.day)) := rfl
  rw [loop_cons_field _ _ _
      (by rw [htrim4, h4c, hBc]; exact cons_ne_cons _ _ _ _ (by decide))
      (by rw [htrim4, h4c, hEc]; exact cons_ne_cons _ _ _ _ (by decide))
      (by rw [htrim4]
          exact contains_of_mem _ _ (List.mem_append.mpr (Or.inl (by decide)))),
    htrim4,
    processLine_dtstart _ _ (stripTimePart_of_digits _ hdig) (isEightDigits_of _ hv8 hdig),
    htk1, htk2, htk3,
    show natDigits todo.date.year ++ '-' :: pad2 todo.date.month
      ++ '-' :: pad2 todo.date.day = isoDate todo.date from rfl]
  -- SUMMARY line
  have htrim5 : trim ("SUMMARY:".data ++ todo.text) = "SUMMARY:".data ++ todo.text := by
    unfold trim
    rw [rtrim_append _ _ (by decide) ht3, ltrim_append_keep _ _ (by decide) (by decide)]
  have h5c : "SUMMARY:".data ++ todo.text = 'S' :: ("UMMARY:".data ++ todo.text) := rfl
  rw [loop_cons_field _ _ _
      (by rw [htrim5, h5c, hBc]; exact cons_ne_cons _ _ _ _ (by decide))
      (by rw [htrim5, h5c, hEc]; exact cons_ne_cons _ _ _ _ (by decide))
      (by rw [htrim5]
          exact contains_of_mem _ _ (List.mem_append.mpr (Or.inl (by decide)))),
    htrim5, processLine_summary]
  -- remaining lines and commit
  rw [decodedTodo_fields todo (fun u hu => ⟨(htags u hu).1,
      (fun c hc => ((htags u hu).2.1 c hc).2.2.1), (htags u hu).2.2.2⟩),
    loop_commit_block _ todo.category todo.tags todo.completed rest
      hc1 hc2 hc3 htags ?htx ?hdt]
  case htx => exact truthyStr_some _ ht1
  case hdt => exact truthyStr_some _ (isoDate_ne_nil _)

/-- Every character of every line emitted for a clean task is free of line
terminators, so the CRLF join splits back into exactly these lines. -/
theorem todoEventLines_plain (todo : Todo) (stamp : List Char) (o : Int)
    (h : CleanTodo todo) (hstamp : ∀ c ∈ stamp, plainChar c)
    (ho1 : -840 ≤ o) (ho2 : o ≤ 840) :
    ∀ l ∈ todoEventLines todo stamp o, ∀ c ∈ l, plainChar c := by
  obtain ⟨ht1, ht2, ht3, hc1, hc2, hc3, htags, hid, hvd, hy1, hy2⟩ := h
  obtain ⟨hexp, hyl, hml, hdl, hdig⟩ :=
    exportFormatDate_spec todo.date o hvd hy1 hy2 ho1 ho2
  intro l hl
  simp only [todoEventLines, List.mem_cons, List.not_mem_nil, or_false] at hl
  rcases hl with rfl | rfl | rfl | rfl | rfl | rfl | rfl | rfl | rfl
  · intro c hc
    fin_cases hc <;> constructor <;> decide
  · intro c hc
    rcases List.mem_append.mp hc with h1 | h2
    · rcases List.mem_append.mp h1 with h3 | h4
      · fin_cases h3 <;> constructor <;> decide
      · exact hid c h4
    · fin_cases h2 <;> constructor <;> decide
  · intro c hc
    rcases List.mem_append.mp hc with h1 | h2
    · fin_cases h1 <;> constructor <;> decide
    · exact hstamp c h2
  · intro c hc
    rcases List.mem_append.mp hc with h1 | h2
    · fin_cases h1 <;> constructor <;> decide
    · rw [hexp] at h2
      exact plainChar_of_digit c (hdig c h2)
  · intro c hc
    rcases List.mem_append.mp hc with h1 | h2
    · fin_cases h1 <;> constructor <;> decide
    · rw [escapeText_clean _ ht2] at h2
      exact ⟨(ht2 c h2).2.2.2.1, (ht2 c h2).2.2.2.2⟩
  · rw [escapeText_blob todo.category todo.tags _ hc1 (fun t ht => (htags t ht).2.1)
        (by cases todo.completed <;> simp)]
    intro c hc
    simp only [List.mem_append] at hc
    rcases hc with hp | (((((((h1 | h2) | h3) | h4) | h5) | h6) | h7) | h8)
    · fin_cases hp <;> constructor <;> decide
    · fin_cases h1 <;> constructor <;> decide
    · exact ⟨(hc1 c h2).2.2.2.1, (hc1 c h2).2.2.2.2⟩
    · fin_cases h3 <;> constructor <;> decide
    · fin_cases h4 <;> constructor <;> decide
    · rcases mem_escTagsJoin h5 with ⟨t, ht, hct⟩ | hq | hq | hq
      · exact ⟨((htags t ht).2.1 c hct).2.2.2.1, ((htags t ht).2.1 c hct).2.2.2.2⟩
      · subst hq; constructor <;> decide
      · subst hq; constructor <;> decide
      · subst hq; constructor <;> decide
    · fin_cases h6 <;> constructor <;> decide
    · fin_cases h7 <;> constructor <;> decide
    · rcases hb : todo.completed with _ | _ <;> rw [hb] at h8 <;>
        fin_cases h8 <;> constructor <;> decide
  · intro c hc
    rcases List.mem_append.mp hc with h1 | h2
    · fin_cases h1 <;> constructor <;> decide
    · exact ⟨(hc1 c h2).2.2.2.1, (hc1 c h2).2.2.2.2⟩
  · intro c hc
    rcases List.mem_append.mp hc with h1 | h2
    · fin_cases h1 <;> constructor <;> decide
    · rcases hb : todo.completed with _ | _ <;> rw [hb] at h2 <;>
        fin_cases h2 <;> constructor <;> decide
  · intro c hc
    fin_cases hc <;> constructor <;> decide

/-- Every line of the rendered document is line-terminator free. -/
theorem exportLines_plain (todos : List Todo) (stamp : List Char) (o : Int)
    (h : ∀ t ∈ todos, CleanTodo t) (hsp : ∀ c ∈ stamp, plainChar c)
    (ho1 : -840 ≤ o) (ho2 : o ≤ 840) :
    ∀ l ∈ icsHeaderLines
        ++ (todos.map fun todo => todoEventLines todo stamp o).join
        ++ ["END:VCALENDAR".data], ∀ c ∈ l, plainChar c := by
  intro l hl
  rcases List.mem_append.mp hl with hl1 | hl2
  · rcases List.mem_append.mp hl1 with hh | hb
    · fin_cases hh <;> intro c hc <;> fin_cases hc <;> constructor <;> decide
    · rw [List.mem_join] at hb
      obtain ⟨ls, hls, hlmem⟩ := hb
      rw [List.mem_map] at hls
      obtain ⟨t, htm, rfl⟩ := hls
      exact todoEventLines_plain t stamp o (h t htm) hsp ho1 ho2 l hlmem
  · simp only [List.mem_singleton] at hl2
    subst hl2
    intro c hc
    fin_cases hc <;> constructor <;> decide

/-- Decoding a run of emitted event blocks plus the footer yields the
decoded images in input order. -/
theorem loop_blocks (stamp : List Char) (o : Int) (hsr : rtrim stamp = stamp)
    (ho1 : -840 ≤ o) (ho2 : o ≤ 840) :
    ∀ (todos : List Todo), (∀ t ∈ todos, CleanTodo t) →
      parseLinesLoop ((todos.map fun todo => todoEventLines todo stamp o).join
          ++ ["END:VCALENDAR".data]) none
        = todos.map decodedTodo := by
  intro todos
  induction todos with
  | nil =>
    intro _
    rw [show ((([] : List Todo).map fun todo => todoEventLines todo stamp o).join
        ++ ["END:VCALENDAR".data]) = ["END:VCALENDAR".data] from rfl,
      loop_cons_none _ _ (by decide)]
    rfl
  | cons t ts ih =>
    intro h
    rw [show (((t :: ts).map fun todo => todoEventLines todo stamp o).join
          ++ ["END:VCALENDAR".data])
        = todoEventLines t stamp o
          ++ ((ts.map fun todo => todoEventLines todo stamp o).join
            ++ ["END:VCALENDAR".data]) from by simp [List.append_assoc],
      loop_eventLines t stamp o _ none (h t (List.mem_cons_self _ _)) hsr ho1 ho2,
      ih fun u hu => h u (List.mem_cons_of_mem _ hu)]
    rfl

set_option maxHeartbeats 1000000 in
/-- C1 (corrected).  Export followed by decode, for a collection of clean
tasks (text, category and tags free of the escaped characters, suitably
trimmed, four-digit-year dates, terminator-free ids), a terminator-free
right-trimmed timestamp and a real-world UTC offset, reproduces per task
the `text`, the `date` (re-rendered ISO), the `category` and the
`completed` flag, and resets `pinned`; the tag list however is NOT
reproduced, not even as a set: every tag comes back with one appended
backslash, and an empty tag list comes back as one lone-backslash tag
(`decodedTodo`), because the encoder escapes the description's literal
`\n` separators to `\\n` and the join's `", "` to `"\, "`, while the
decoder only unescapes `\n` and never `\,`. -/
theorem export_then_parse_decodes (todos : List Todo) (stamp : List Char) (o : Int)
    (h : ∀ t ∈ todos, CleanTodo t)
    (hsp : ∀ c ∈ stamp, plainChar c) (hsr : rtrim stamp = stamp)
    (ho1 : -840 ≤ o) (ho2 : o ≤ 840) :
    parseICS (exportToICS todos stamp o) = todos.map decodedTodo := by
  unfold parseICS exportToICS
  rw [splitLines_joinCRLF _ (by simp [icsHeaderLines])
      (exportLines_plain todos stamp o h hsp ho1 ho2),
    show icsHeaderLines ++ (todos.map fun todo => todoEventLines todo stamp o).join
        ++ ["END:VCALENDAR".data]
      = icsHeaderLines ++ ((todos.map fun todo => todoEventLines todo stamp o).join
        ++ ["END:VCALENDAR".data]) from by simp [List.append_assoc],
    loop_header,
    loop_blocks stamp o hsr ho1 ho2 todos h]

/-- Witness for C1: the seed collection round-trips to exactly its decoded
images under a concrete timestamp and offset. -/
theorem export_then_parse_decodes_witness :
    (∀ t ∈ mockTodos, CleanTodo t) ∧
    (∀ c ∈ "20240101T000000Z".data, plainChar c) ∧
    rtrim "20240101T000000Z".data = "20240101T000000Z".data ∧
    parseICS (exportToICS mockTodos "20240101T000000Z".data 120)
      = mockTodos.map decodedTodo :=
  ⟨by decide, by decide, by decide,
   export_then_parse_decodes mockTodos "20240101T000000Z".data 120
     (by decide) (by decide) (by decide) (by decide) (by decide)⟩

/-- Counterexample to C1 as claimed: a task whose text is clean (no
backslash, semicolon, comma or newline) exports and decodes to a task with
the same text, but its tag set is not preserved — neither original tag is
among the decoded tags, which all carry a trailing backslash. -/
theorem roundtrip_tags_not_preserved :
    cleanText "Call mom".data ∧
    (parseICS (exportToICS
        [⟨['5'], "Call mom".data, true, ⟨2024, 1, 14⟩, "personal".data,
          ["family".data, "call".data], false⟩]
        "20240101T000000Z".data 0)).length = 1 ∧
    ∀ p ∈ parseICS (exportToICS
        [⟨['5'], "Call mom".data, true, ⟨2024, 1, 14⟩, "personal".data,
          ["family".data, "call".data], false⟩]
        "20240101T000000Z".data 0),
      p.text = some "Call mom".data ∧ p.completed = true ∧
      p.category = "personal".data ∧
      "family".data ∈ (["family".data, "call".data] : List (List Char)) ∧
      ∀ u ∈ p.tags, u ≠ "family".data ∧ u ≠ "call".data := by decide

end Dwmyo
